import Mathlib

/-!
Verification of leaner-api: the error translator and the bootcamp list handler.

A shallow embedding of `src/middlewares/error.js` (`errorHandleer`) and of
`getBootcamps` from `src/controllers/bootcampController.js`, with the builtins
they call (`parseInt`, `JSON.stringify`, the global regular-expression replace,
`JSON.parse`, `Object.values`) and the properties proved about them.

Conventions of the model:
* JavaScript values of the error translator are `JSVal`; a number there is an
  integer that a double represents (a status or error code).
* The numbers of the pagination are `JSNum`: doubles with an integral value,
  the infinities and `NaN`.  `parseInt` and the arithmetic round to the nearest
  double as the language does, so beyond `2^53` they differ from the exact
  integer operations.
* `req.query` holds what the query-string parser produces: strings, arrays and
  nested objects (`QVal`).  An object is its property list in enumeration order.
* Texts are lists of Unicode characters; the regular expression has no `u` or
  `i` flag, so its word characters are `[A-Za-z0-9_]`.
* An `async` handler is a function into `Except`: `.ok` is the response sent,
  `.error` the rejection that reaches the error translator.
* The Mongoose model `Bootcamp` is a parameter (`Model`).
-/

namespace LeanerApi

/-! ## Numbers -/

/-- A JavaScript number whose value is an integer, an infinity or `NaN`: what
`parseInt` and the integer arithmetic of the handler produce.  `int n` is used
for integers a double represents; `-0` is not told from `0` (both are falsy,
neither is below or above `0`, both are sent as `0`). -/
inductive JSNum where
  | nan
  | inf (negative : Bool)
  | int (n : Int)
deriving DecidableEq

/-- Number of halvings that bring `q` below `2^53`. -/
def shiftCount : Nat → Nat → Nat
  | 0, _ => 0
  | fuel + 1, q => if q < 2 ^ 53 then 0 else shiftCount fuel (q / 2) + 1

/-- Round a 53-bit significand `q` with remainder `r` to nearest, a remainder of
exactly `half` going to the even significand. -/
def roundSignificand (q r half : Nat) : Nat :=
  if half < r || (r == half && q % 2 == 1) then q + 1 else q

/-- The double nearest to a natural number, ties to the even significand;
`none` when that is beyond the largest double (the result is `Infinity`). -/
def roundNat (m : Nat) : Option Nat :=
  if m < 2 ^ 53 then some m
  else
    let e := shiftCount m m
    let q1 := roundSignificand (m / 2 ^ e) (m % 2 ^ e) (2 ^ (e - 1))
    if 971 < e || (e == 971 && q1 == 2 ^ 53) then none else some (q1 * 2 ^ e)

/-- The number value of an exact integer result. -/
def roundDouble (x : Int) : JSNum :=
  match roundNat x.natAbs with
  | none => .inf (decide (x < 0))
  | some v => .int (if x < 0 then -(v : Int) else (v : Int))

/-- Unary minus. -/
def JSNum.neg : JSNum → JSNum
  | .nan => .nan
  | .inf b => .inf (!b)
  | .int n => .int (-n)

/-- The operator `a + b` on numbers. -/
def JSNum.add : JSNum → JSNum → JSNum
  | .nan, _ => .nan
  | .inf _, .nan => .nan
  | .inf a, .inf b => if a = b then .inf a else .nan
  | .inf a, .int _ => .inf a
  | .int _, .nan => .nan
  | .int _, .inf b => .inf b
  | .int a, .int b => roundDouble (a + b)

/-- The operator `a - b` on numbers. -/
def JSNum.sub (a b : JSNum) : JSNum := JSNum.add a (JSNum.neg b)

/-- The operator `a * b` on numbers. -/
def JSNum.mul : JSNum → JSNum → JSNum
  | .nan, _ => .nan
  | .inf _, .nan => .nan
  | .inf a, .inf b => .inf (a != b)
  | .inf a, .int n => if n = 0 then .nan else .inf (a != decide (n < 0))
  | .int _, .nan => .nan
  | .int n, .inf b => if n = 0 then .nan else .inf (decide (n < 0) != b)
  | .int a, .int b => roundDouble (a * b)

/-- The comparison `a < b` on numbers. -/
def JSNum.lt : JSNum → JSNum → Bool
  | .nan, _ => false
  | .inf _, .nan => false
  | .inf a, .inf b => a && !b
  | .inf a, .int _ => a
  | .int _, .nan => false
  | .int _, .inf b => !b
  | .int a, .int b => decide (a < b)

/-- Truthiness of a number: `NaN` and zero are falsy. -/
def JSNum.truthy : JSNum → Bool
  | .nan => false
  | .inf _ => true
  | .int n => n != 0

instance instOfNatJSNum (n : Nat) : OfNat JSNum n := ⟨.int n⟩

instance instNegJSNum : Neg JSNum := ⟨JSNum.neg⟩

instance instAddJSNum : Add JSNum := ⟨JSNum.add⟩

instance instSubJSNum : Sub JSNum := ⟨JSNum.sub⟩

instance instMulJSNum : Mul JSNum := ⟨JSNum.mul⟩

/-- A count reported by the database, as the number the handler receives. -/
def JSNum.ofCount (total : Nat) : JSNum := roundDouble (total : Int)

/-- The shortest significand: the least number of leading decimal digits of `x`
(rounded down or up) that still denote a number whose nearest double is `x`,
with the power of ten that follows them. -/
def shortestDigits (x nd : Nat) : Nat → Nat → Nat × Nat
  | 0, _ => (x, 0)
  | fuel + 1, k =>
    let e10 := nd - k
    let lo := x / 10 ^ e10
    let hi := lo + 1
    let okLo := roundNat (lo * 10 ^ e10) == some x
    let okHi := roundNat (hi * 10 ^ e10) == some x
    if okLo && okHi then
      (if x - lo * 10 ^ e10 ≤ hi * 10 ^ e10 - x then (lo, e10) else (hi, e10))
    else if okLo then (lo, e10)
    else if okHi then (hi, e10)
    else shortestDigits x nd fuel (k + 1)

/-- Move the trailing zeros of a significand into the exponent. -/
def stripZeros : Nat → Nat → Nat → Nat × Nat
  | 0, s, e => (s, e)
  | fuel + 1, s, e => if s % 10 = 0 && s != 0 then stripZeros fuel (s / 10) (e + 1) else (s, e)

/-- The exponent form `d.ddde+n` in which JavaScript prints a double from
`10^21` on: the shortest digits that denote it. -/
def exponentForm (x : Nat) : String :=
  let nd := (Nat.repr x).length
  let found := shortestDigits x nd 17 1
  let se := stripZeros 17 found.1 found.2
  let ds := (Nat.repr se.1).data
  let mantissa := match ds with
    | [] => []
    | [d] => [d]
    | d :: rest => d :: '.' :: rest
  String.mk mantissa ++ "e+" ++ Nat.repr (ds.length + se.2 - 1)

/-- `Number.prototype.toString` on an integer a double represents: decimal
digits below `10^21`, the exponent form from there on. -/
def numToStr (n : Int) : String :=
  if n.natAbs < 10 ^ 21 then toString n
  else (if n < 0 then "-" else "") ++ exponentForm n.natAbs

/-! ## JavaScript values -/

/-- JavaScript values: primitives, arrays and plain objects (property lists in
enumeration order).  A number `num n` is an integer that a double represents. -/
inductive JSVal where
  | undefined
  | null
  | bool (b : Bool)
  | num (n : Int)
  | str (s : String)
  | arr (xs : List JSVal)
  | obj (props : List (String × JSVal))

/-- First binding of key `k` in a property list. -/
def lookupProp {α : Type} (k : String) : List (String × α) → Option α
  | [] => none
  | (k', v) :: rest => if k' = k then some v else lookupProp k rest

/-- Assignment `o[k] = v` on a property list: overwrite in place, else append. -/
def setProp {α : Type} (k : String) (v : α) : List (String × α) → List (String × α)
  | [] => [(k, v)]
  | (k', v') :: rest => if k' = k then (k, v) :: rest else (k', v') :: setProp k v rest

/-- Operator `delete o[k]` on a property list. -/
def deleteProp {α : Type} (k : String) : List (String × α) → List (String × α)
  | [] => []
  | (k', v') :: rest => if k' = k then deleteProp k rest else (k', v') :: deleteProp k rest

/-- JavaScript truthiness (`ToBoolean`). -/
def JSVal.truthy : JSVal → Bool
  | .undefined => false
  | .null => false
  | .bool b => b
  | .num n => n != 0
  | .str s => s != ""
  | .arr _ => true
  | .obj _ => true

/-- The operator `a || b`. -/
def jsOr (a b : JSVal) : JSVal := if a.truthy then a else b

mutual
/-- JavaScript `ToString` (`String(v)`, template-literal interpolation). -/
def JSVal.toStr : JSVal → String
  | .undefined => "undefined"
  | .null => "null"
  | .bool b => if b then "true" else "false"
  | .num n => numToStr n
  | .str s => s
  | .arr xs => JSVal.joinComma xs
  | .obj _ => "[object Object]"
/-- The text `Array.prototype.join(",")` yields: `undefined` and `null` elements
are empty. -/
def JSVal.joinComma : List JSVal → String
  | [] => ""
  | [x] => JSVal.elemStr x
  | x :: y :: rest => JSVal.elemStr x ++ "," ++ JSVal.joinComma (y :: rest)
/-- One element of a joined array. -/
def JSVal.elemStr : JSVal → String
  | .undefined => ""
  | .null => ""
  | .bool b => if b then "true" else "false"
  | .num n => numToStr n
  | .str s => s
  | .arr xs => JSVal.joinComma xs
  | .obj _ => "[object Object]"
end

/-! ## Error values -/

/-- An error value as the translator sees it: `own` are the own enumerable
properties (what `{ ...err }` copies), `hidden` the properties that can be read
but are not enumerated (own non-enumerable ones such as `message` of an `Error`
instance, and inherited ones such as `name`).  A thrown primitive behaves as an
object without any of the properties the translator reads. -/
structure ErrVal where
  own : List (String × JSVal)
  hidden : List (String × JSVal)

/-- Property read `e.k`. -/
def ErrVal.get (e : ErrVal) (k : String) : JSVal :=
  match lookupProp k e.own with
  | some v => v
  | none =>
    match lookupProp k e.hidden with
    | some v => v
    | none => .undefined

/-- The object literal `{ ...err }`. -/
def ErrVal.spread (e : ErrVal) : ErrVal := { own := e.own, hidden := [] }

/-- Assignment `e.k = v` on a plain object. -/
def ErrVal.set (e : ErrVal) (k : String) (v : JSVal) : ErrVal :=
  { own := setProp k v e.own, hidden := e.hidden }

/-- A `TypeError` raised by the language runtime. -/
def typeError (msg : String) : ErrVal :=
  { own := [], hidden := [("message", .str msg), ("name", .str "TypeError")] }

/-- Modelled from the spec: `utils/errorResponse` is not among the sources.  The
Error Object is `{ message: string, statusCode: integer }`, built as a subclass
of `Error`: the constructor hands `message` to `Error` (which stores its
`ToString` as a non-enumerable property) and assigns `this.statusCode`. -/
def ErrorResponse (message : JSVal) (statusCode : JSVal) : ErrVal :=
  { own := [("statusCode", statusCode)]
    hidden := [("message", match message with
                           | .undefined => .str ""
                           | m => .str m.toStr),
               ("name", .str "Error")] }

/-- The one-character strings `Object.values` lists for a string, one for each
UTF-16 code unit: a character outside the Basic Multilingual Plane gives two.
A lone surrogate is no character here; it is written U+FFFD. -/
def codeUnitStrings : List Char → List JSVal
  | [] => []
  | c :: cs =>
    if c.toNat < 0x10000 then .str (String.mk [c]) :: codeUnitStrings cs
    else .str (String.mk [Char.ofNat 0xFFFD]) :: .str (String.mk [Char.ofNat 0xFFFD])
      :: codeUnitStrings cs

/-- The builtin `Object.values(v)`. -/
def objectValues : JSVal → Except ErrVal (List JSVal)
  | .undefined => .error (typeError "Cannot convert undefined or null to object")
  | .null => .error (typeError "Cannot convert undefined or null to object")
  | .bool _ => .ok []
  | .num _ => .ok []
  | .str s => .ok (codeUnitStrings s.data)
  | .arr xs => .ok xs
  | .obj props => .ok (props.map Prod.snd)

/-- Property read `val.message` on a value. -/
def readMessage : JSVal → Except ErrVal JSVal
  | .undefined => .error (typeError "Cannot read properties of undefined (reading 'message')")
  | .null => .error (typeError "Cannot read properties of null (reading 'message')")
  | .obj props =>
    match lookupProp "message" props with
    | some v => .ok v
    | none => .ok .undefined
  | _ => .ok .undefined

/-- The callback-driven `xs.map(val => val.message)`. -/
def mapMessages : List JSVal → Except ErrVal (List JSVal)
  | [] => .ok []
  | v :: rest =>
    match readMessage v with
    | .error e => .error e
    | .ok m =>
      match mapMessages rest with
      | .error e => .error e
      | .ok ms => .ok (m :: ms)

/-- The comparison `v === s` against a string literal. -/
def strictEqStr (v : JSVal) (s : String) : Bool :=
  match v with
  | .str t => t == s
  | _ => false

/-- The comparison `v === n` against an integer literal. -/
def strictEqNum (v : JSVal) (n : Int) : Bool :=
  match v with
  | .num m => m == n
  | _ => false

/-- What `res.status(code).json(body)` sends. -/
structure Response where
  status : JSVal
  body : JSVal

/-- The error envelope `{ success: false, error: m }`. -/
def errorBody (m : JSVal) : JSVal := .obj [("success", .bool false), ("error", m)]

/-- The translator of `src/middlewares/error.js`: `.ok` is the response it
sends, `.error` an exception that escapes it. -/
def errorHandleer (err : ErrVal) : Except ErrVal Response :=
  let error := err.spread
  let error := error.set "message" (err.get "message")
  -- Mongoose bad ObjectId
  let error :=
    if strictEqStr (err.get "name") "CastError" then
      ErrorResponse (.str ("Resource not found with id: " ++ (err.get "value").toStr)) (.num 404)
    else error
  -- Mongoose duplicate key
  let error :=
    if strictEqNum (err.get "code") 11000 then
      ErrorResponse (.str "Duplicate field value entered") (.num 400)
    else error
  -- Mongoose validation error
  let error : Except ErrVal ErrVal :=
    if strictEqStr (err.get "name") "ValidationError" then
      match objectValues (err.get "errors") with
      | .error e => .error e
      | .ok vals =>
        match mapMessages vals with
        | .error e => .error e
        | .ok message => .ok (ErrorResponse (.arr message) (.num 400))
    else .ok error
  match error with
  | .error e => .error e
  | .ok error =>
    .ok { status := jsOr (error.get "statusCode") (.num 500)
          body := errorBody (jsOr (error.get "message") (.str "Server Error")) }

/-! ## Query-string values -/

/-- What the framework's query-string parser puts in `req.query`: strings,
arrays and nested objects. -/
inductive QVal where
  | str (s : String)
  | arr (xs : List QVal)
  | obj (props : List (String × QVal))

/-- The object `req.query`. -/
abbrev Query := List (String × QVal)

mutual
/-- JavaScript `ToString` on a query value. -/
def QVal.toStr : QVal → String
  | .str s => s
  | .arr xs => QVal.joinComma xs
  | .obj _ => "[object Object]"
/-- The text `Array.prototype.join(",")` yields on query values. -/
def QVal.joinComma : List QVal → String
  | [] => ""
  | [x] => QVal.toStr x
  | x :: y :: rest => QVal.toStr x ++ "," ++ QVal.joinComma (y :: rest)
end

/-- Truthiness of a possibly absent query parameter. -/
def paramTruthy : Option QVal → Bool
  | none => false
  | some (.str s) => s != ""
  | some _ => true

/-- `ToString` of a possibly absent query parameter. -/
def paramToStr : Option QVal → String
  | none => "undefined"
  | some v => v.toStr

/-! ## `parseInt(_, 10)` -/

/-- White space and line terminators that `parseInt` skips. -/
def isStrWhiteSpace (c : Char) : Bool :=
  let n := c.toNat
  n = 9 || n = 10 || n = 11 || n = 12 || n = 13 || n = 32 || n = 0xA0 || n = 0x1680
    || (0x2000 ≤ n && n ≤ 0x200A) || n = 0x2028 || n = 0x2029 || n = 0x202F
    || n = 0x205F || n = 0x3000 || n = 0xFEFF

/-- Decimal digits. -/
def isDecDigit (c : Char) : Bool := 48 ≤ c.toNat && c.toNat ≤ 57

/-- Value of a run of decimal digits. -/
def digitsValue (ds : List Char) : Nat := ds.foldl (fun acc d => acc * 10 + (d.toNat - 48)) 0

/-- Split an optional leading sign off. -/
def splitSign : List Char → Int × List Char
  | c :: rest => if c = '-' then (-1, rest) else if c = '+' then (1, rest) else (1, c :: rest)
  | [] => (1, [])

/-- The builtin `parseInt(s, 10)`: the signed value of the leading digits as a
number (the nearest double), `NaN` when there is no leading digit. -/
def parseInt (s : String) : JSNum :=
  let signed := splitSign (s.data.dropWhile isStrWhiteSpace)
  let ds := signed.2.takeWhile isDecDigit
  if ds = [] then .nan else roundDouble (signed.1 * (digitsValue ds : Int))

/-- The expression `parseInt(param, 10) || dflt`. -/
def parseIntOr (param : Option QVal) (dflt : JSNum) : JSNum :=
  if (parseInt (paramToStr param)).truthy then parseInt (paramToStr param) else dflt

/-! ## `JSON.stringify` -/

/-- Lower-case hexadecimal digit. -/
def hexDigit (n : Nat) : Char :=
  if n < 10 then Char.ofNat (48 + n) else Char.ofNat (87 + n)

/-- Escape of one character inside a JSON string (`QuoteJSONString`). -/
def escapeChar (c : Char) : List Char :=
  if c = '\x22' then ['\x5c', '\x22']
  else if c = '\x5c' then ['\x5c', '\x5c']
  else if c = '\x08' then ['\x5c', 'b']
  else if c = '\x0c' then ['\x5c', 'f']
  else if c = '\n' then ['\x5c', 'n']
  else if c = '\r' then ['\x5c', 'r']
  else if c = '\t' then ['\x5c', 't']
  else if c.toNat < 32 then ['\x5c', 'u', '0', '0', hexDigit (c.toNat / 16), hexDigit (c.toNat % 16)]
  else [c]

/-- Escaped contents of a JSON string. -/
def escapeChars : List Char → List Char
  | [] => []
  | c :: cs => escapeChar c ++ escapeChars cs

/-- A quoted JSON string. -/
def quoteJSON (s : String) : List Char := '\x22' :: (escapeChars s.data ++ ['\x22'])

mutual
/-- Characters of `JSON.stringify(v)`. -/
def stringifyVal : QVal → List Char
  | .str s => quoteJSON s
  | .arr xs => '[' :: (stringifyElems xs ++ [']'])
  | .obj props => '\x7b' :: (stringifyMembers props ++ ['\x7d'])
/-- Comma-separated elements of an array. -/
def stringifyElems : List QVal → List Char
  | [] => []
  | [x] => stringifyVal x
  | x :: y :: rest => stringifyVal x ++ ',' :: stringifyElems (y :: rest)
/-- Comma-separated members of an object. -/
def stringifyMembers : List (String × QVal) → List Char
  | [] => []
  | [(k, v)] => quoteJSON k ++ ':' :: stringifyVal v
  | (k, v) :: kv :: rest => quoteJSON k ++ ':' :: (stringifyVal v ++ ',' :: stringifyMembers (kv :: rest))
end

/-- The builtin `JSON.stringify` on a query object. -/
def JSON.stringify (v : QVal) : String := String.mk (stringifyVal v)

/-! ## The operator rewrite `/\b(gt|gte|lt|lte|in)\b/g` -/

/-- Word characters of a regular expression: `[A-Za-z0-9_]`. -/
def isWordChar (c : Char) : Bool :=
  let n := c.toNat
  (48 ≤ n && n ≤ 57) || (65 ≤ n && n ≤ 90) || (97 ≤ n && n ≤ 122) || n = 95

/-- Whether the character next to a position (if any) is a word character. -/
def isWordAt : Option Char → Bool
  | none => false
  | some c => isWordChar c

/-- The assertion `\b` between `before` and `after`. -/
def wordBoundary (before after : Option Char) : Bool := isWordAt before != isWordAt after

/-- The alternatives of the group, in order. -/
def operators : List (List Char) :=
  [['g', 't'], ['g', 't', 'e'], ['l', 't'], ['l', 't', 'e'], ['i', 'n']]

/-- Strip `pat` off the front of `l`. -/
def stripFront : List Char → List Char → Option (List Char)
  | [], l => some l
  | _ :: _, [] => none
  | p :: ps, c :: cs => if p = c then stripFront ps cs else none

/-- One alternative followed by `\b`: the rest of the text after the match. -/
def matchAlt (alt l : List Char) : Option (List Char) :=
  match stripFront alt l with
  | none => none
  | some rest => if wordBoundary alt.getLast? rest.head? then some rest else none

/-- First alternative of `alts` that matches at the front of `l`. -/
def matchAlts : List (List Char) → List Char → Option (List Char × List Char)
  | [], _ => none
  | alt :: alts, l =>
    match matchAlt alt l with
    | some rest => some (alt, rest)
    | none => matchAlts alts l

/-- The whole pattern at a position: the character before it, the text from it. -/
def matchAt (before : Option Char) (l : List Char) : Option (List Char × List Char) :=
  if wordBoundary before l.head? then matchAlts operators l else none

/-- Global replace, scanning left to right: a match is replaced by `$` and
itself and the scan resumes after it. -/
def replaceLoop : Nat → Option Char → List Char → List Char
  | 0, _, l => l
  | fuel + 1, before, l =>
    match matchAt before l with
    | some (m, rest) => '$' :: (m ++ replaceLoop fuel m.getLast? rest)
    | none =>
      match l with
      | [] => []
      | c :: cs => c :: replaceLoop fuel (some c) cs

/-- The statement `queryStr.replace(/\b(gt|gte|lt|lte|in)\b/g, match => "$" + match)`. -/
def replaceOperators (s : String) : String :=
  String.mk (replaceLoop (s.data.length + 1) none s.data)

/-! ## `JSON.parse` -/

/-- White space between JSON tokens. -/
def isJsonWs (c : Char) : Bool := c = ' ' || c = '\t' || c = '\n' || c = '\r'

/-- Drop leading JSON white space. -/
def skipWs : List Char → List Char
  | [] => []
  | c :: cs => if isJsonWs c then skipWs cs else c :: cs

/-- Value of a hexadecimal digit. -/
def hexValue (c : Char) : Option Nat :=
  let n := c.toNat
  if 48 ≤ n && n ≤ 57 then some (n - 48)
  else if 97 ≤ n && n ≤ 102 then some (n - 87)
  else if 65 ≤ n && n ≤ 70 then some (n - 55)
  else none

/-- The character of `\uXXXX` (a lone surrogate has no counterpart here). -/
def unicodeEscape (a b c d : Char) : Option Char :=
  match hexValue a, hexValue b, hexValue c, hexValue d with
  | some w, some x, some y, some z =>
    let n := ((w * 16 + x) * 16 + y) * 16 + z
    if 0xD800 ≤ n && n ≤ 0xDFFF then none else some (Char.ofNat n)
  | _, _, _, _ => none

/-- The character of a two-character escape `\e`. -/
def simpleEscape (e : Char) : Option Char :=
  if e = '\x22' then some '\x22'
  else if e = '\x5c' then some '\x5c'
  else if e = '/' then some '/'
  else if e = 'b' then some '\x08'
  else if e = 'f' then some '\x0c'
  else if e = 'n' then some '\n'
  else if e = 'r' then some '\r'
  else if e = 't' then some '\t'
  else none

/-- Put a decoded character in front of the rest of a string. -/
def consChar (c : Char) : Option (List Char × List Char) → Option (List Char × List Char)
  | none => none
  | some (s, rest) => some (c :: s, rest)

/-- A JSON string after its opening quote: the decoded characters and the text
after the closing quote. -/
def parseStringBody : List Char → Option (List Char × List Char)
  | [] => none
  | c :: rest =>
    if c = '\x22' then some ([], rest)
    else if c = '\x5c' then
      match rest with
      | [] => none
      | e :: rest1 =>
        if e = 'u' then
          match rest1 with
          | a :: b :: c1 :: d :: rest2 =>
            match unicodeEscape a b c1 d with
            | none => none
            | some ch => consChar ch (parseStringBody rest2)
          | _ => none
        else
          match simpleEscape e with
          | none => none
          | some ch => consChar ch (parseStringBody rest1)
    else if c.toNat < 32 then none
    else consChar c (parseStringBody rest)

/-- An object from its members in text order: a repeated key keeps its first
place and takes the last value. -/
def buildObject (members : List (String × QVal)) : List (String × QVal) :=
  members.foldl (fun acc kv => setProp kv.1 kv.2 acc) []

mutual
/-- A JSON value at the front of the text and what follows it.  The grammar is
the one of query objects (strings, arrays, objects): a number or a literal is
refused. -/
def parseValue : Nat → List Char → Option (QVal × List Char)
  | 0, _ => none
  | fuel + 1, l =>
    match skipWs l with
    | [] => none
    | c :: rest =>
      if c = '\x22' then
        match parseStringBody rest with
        | none => none
        | some (s, r) => some (.str (String.mk s), r)
      else if c = '[' then
        match skipWs rest with
        | [] => none
        | d :: r =>
          if d = ']' then some (.arr [], r)
          else
            match parseElems fuel rest with
            | none => none
            | some (xs, r1) => some (.arr xs, r1)
      else if c = '\x7b' then
        match skipWs rest with
        | [] => none
        | d :: r =>
          if d = '\x7d' then some (.obj [], r)
          else
            match parseMembers fuel rest with
            | none => none
            | some (ms, r1) => some (.obj (buildObject ms), r1)
      else none
/-- The elements of a non-empty array, up to and including `]`. -/
def parseElems : Nat → List Char → Option (List QVal × List Char)
  | 0, _ => none
  | fuel + 1, l =>
    match parseValue fuel l with
    | none => none
    | some (v, r) =>
      match skipWs r with
      | [] => none
      | c :: r1 =>
        if c = ',' then
          match parseElems fuel r1 with
          | none => none
          | some (vs, r2) => some (v :: vs, r2)
        else if c = ']' then some ([v], r1)
        else none
/-- The members of a non-empty object, up to and including the closing brace. -/
def parseMembers : Nat → List Char → Option (List (String × QVal) × List Char)
  | 0, _ => none
  | fuel + 1, l =>
    match skipWs l with
    | [] => none
    | q :: r =>
      if q = '\x22' then
        match parseStringBody r with
        | none => none
        | some (k, r1) =>
          match skipWs r1 with
          | [] => none
          | c :: r2 =>
            if c = ':' then
              match parseValue fuel r2 with
              | none => none
              | some (v, r3) =>
                match skipWs r3 with
                | [] => none
                | e :: r4 =>
                  if e = ',' then
                    match parseMembers fuel r4 with
                    | none => none
                    | some (ms, r5) => some ((String.mk k, v) :: ms, r5)
                  else if e = '\x7d' then some ([(String.mk k, v)], r4)
                  else none
            else none
      else none
end

/-- The builtin `JSON.parse` on the grammar of query objects; `none` is a
`SyntaxError`.  The fuel bounds the number of nested calls, which never exceeds
the length of the text. -/
def JSON.parse (s : String) : Option QVal :=
  match parseValue (s.data.length + 1) s.data with
  | none => none
  | some (v, rest) => if skipWs rest = [] then some v else none

/-! ## The database collaborator -/

/-- A query as built by `Bootcamp.find(..).populate(..).select(..).sort(..).skip(..).limit(..)`. -/
structure QuerySpec where
  conditions : QVal
  populate : List String
  select : Option String
  sort : String
  skip : JSNum
  limit : JSNum

/-- The `Bootcamp` model, as far as the handler uses it: `countDocuments(c)`
(`none`: called without conditions, every document counts) and the execution
of a built query.  Either may reject. -/
structure Model where
  countDocuments : Option QVal → Except ErrVal Nat
  exec : QuerySpec → Except ErrVal (List JSVal)

/-- A stored document of the in-memory collection: string fields. -/
abbrev Doc := List (String × String)

/-- Equality conditions of a filter against a stored document. -/
def matchesDoc (conditions : QVal) (doc : Doc) : Bool :=
  match conditions with
  | .obj props =>
    props.all (fun kv =>
      match kv.2 with
      | .str s => lookupProp kv.1 doc == some s
      | _ => false)
  | _ => false

/-- A document as a JavaScript value. -/
def docToJS (doc : Doc) : JSVal := .obj (doc.map (fun kv => (kv.1, .str kv.2)))

/-- A small in-memory collection for concrete evaluation: `countDocuments()`
without conditions counts every document, `find` keeps the documents that meet
the equality conditions of the filter, in insertion order; a negative `skip` is
rejected as the database does, and so is a `skip` or `limit` that is no finite
number. -/
def memModel (docs : List Doc) : Model :=
  { countDocuments := fun c =>
      match c with
      | none => .ok docs.length
      | some f => .ok (docs.filter (matchesDoc f)).length
    exec := fun q =>
      match q.skip, q.limit with
      | .int skip, .int limit =>
        if skip < 0 then
          .error { own := [("code", .num 2)], hidden := [("message", .str "skip value must be non-negative"), ("name", .str "MongoError")] }
        else
          .ok ((((docs.filter (matchesDoc q.conditions)).drop skip.toNat).take limit.natAbs).map docToJS)
      | _, _ =>
        .error { own := [("code", .num 2)], hidden := [("message", .str "skip and limit must be finite numbers"), ("name", .str "MongoError")] } }

/-! ## `getBootcamps` -/

/-- The two objects of lines 12-15: the request's own `req.query` and the local
copy `reqQuery`. -/
structure Locals where
  reqDotQuery : Query
  reqQuery : Query

/-- The constant `removeFields`. -/
def removeFields : List String := ["select", "sort", "limit", "page"]

/-- Lines 12-15: `reqQuery = { ...req.query }`, then
`removeFields.forEach(params => delete reqQuery[params])`. -/
def copyAndStrip (query : Query) : Locals :=
  removeFields.foldl
    (fun st params => { reqDotQuery := st.reqDotQuery, reqQuery := deleteProp params st.reqQuery })
    { reqDotQuery := query, reqQuery := query }

/-- Lines 17-19: the argument of `Bootcamp.find`, `none` when `JSON.parse` throws. -/
def filterOf (query : Query) : Option QVal :=
  let reqQuery := (copyAndStrip query).reqQuery
  let queryStr := JSON.stringify (.obj reqQuery)
  let queryStr := replaceOperators queryStr
  JSON.parse queryStr

/-- The expression `s.split(',').join(' ')`. -/
def commaToSpace (s : String) : String :=
  String.mk (s.data.map (fun c => if c = ',' then ' ' else c))

/-- The guarded `param.split(',').join(' ')`: `none` when the parameter is falsy,
a `TypeError` when it is truthy and not a string. -/
def fieldList (name : String) (param : Option QVal) : Except ErrVal (Option String) :=
  if paramTruthy param then
    match param with
    | some (.str s) => .ok (some (commaToSpace s))
    | _ => .error (typeError ("req.query." ++ name ++ ".split is not a function"))
  else .ok none

/-- An entry of the pagination metadata. -/
structure PageRef where
  page : JSNum
  limit : JSNum

/-- The object `pagination`. -/
structure Pagination where
  next : Option PageRef
  previous : Option PageRef

/-- The success response of the list handler. -/
structure ListResponse where
  status : Nat
  success : Bool
  count : Nat
  pagination : Pagination
  data : List JSVal

/-- The value of `page` (line 33). -/
def pageOf (query : Query) : JSNum := parseIntOr (lookupProp "page" query) 1

/-- The value of `limit` (line 34). -/
def limitOf (query : Query) : JSNum := parseIntOr (lookupProp "limit" query) 15

/-- Lines 35-36 and 42-55: the arithmetic and the comparisons are those of
JavaScript numbers. -/
def paginationOf (page limit : JSNum) (total : Nat) : Pagination :=
  let startIndex := (page - 1) * limit
  let endIndex := page * limit
  { next := if JSNum.lt endIndex (JSNum.ofCount total) then
              some { page := page + 1, limit := limit } else none
    previous := if JSNum.lt 0 startIndex then
              some { page := page - 1, limit := limit } else none }

/-- The handler `getBootcamps`: `.ok` is the response sent, `.error` the
rejection handed to the error translator. -/
def getBootcamps (M : Model) (query : Query) : Except ErrVal ListResponse :=
  let st := copyAndStrip query
  let queryStr := JSON.stringify (.obj st.reqQuery)
  let queryStr := replaceOperators queryStr
  match JSON.parse queryStr with
  | none => .error { own := [], hidden := [("message", .str "Unexpected token in JSON"), ("name", .str "SyntaxError")] }
  | some filter =>
    match fieldList "select" (lookupProp "select" st.reqDotQuery) with
    | .error e => .error e
    | .ok select =>
      match fieldList "sort" (lookupProp "sort" st.reqDotQuery) with
      | .error e => .error e
      | .ok sort =>
        let sortBy := match sort with
          | some s => s
          | none => "-createdAt"
        let page := parseIntOr (lookupProp "page" st.reqDotQuery) 1
        let limit := parseIntOr (lookupProp "limit" st.reqDotQuery) 15
        let startIndex := (page - 1) * limit
        match M.countDocuments none with
        | .error e => .error e
        | .ok total =>
          match M.exec { conditions := filter, populate := ["courses"], select := select,
                         sort := sortBy, skip := startIndex, limit := limit } with
          | .error e => .error e
          | .ok docs =>
            .ok { status := 200, success := true, count := docs.length,
                  pagination := paginationOf page limit total, data := docs }

/-! ## Spec-side vocabulary -/

/-- Own enumerable property `k` of an error value, `undefined` when missing. -/
def ownProp (err : ErrVal) (k : String) : JSVal :=
  match lookupProp k err.own with
  | some v => v
  | none => .undefined

/-- The values `undefined` and `null`. -/
def JSVal.nullish : JSVal → Bool
  | .undefined => true
  | .null => true
  | _ => false

/-- An `errors` field the validation branch can read: neither `undefined` nor
`null`, and without an `undefined` or `null` entry. -/
def readableErrors : JSVal → Bool
  | .undefined => false
  | .null => false
  | .arr xs => xs.all (fun v => !v.nullish)
  | .obj props => props.all (fun kv => !kv.2.nullish)
  | _ => true

/-- The decimal digits `parseInt` reads from a string: those that follow the
leading white space and an optional sign. -/
def leadingDigits (s : String) : List Char :=
  (splitSign (s.data.dropWhile isStrWhiteSpace)).2.takeWhile isDecDigit

/-- The sign `parseInt` reads in front of the leading digits. -/
def leadingSign (s : String) : Int := (splitSign (s.data.dropWhile isStrWhiteSpace)).1

/-- A query parameter that yields the default: absent, or a string without
leading digits, or a string whose leading digits are all `0`. -/
def ReadsAsAbsent (param : Option QVal) : Prop :=
  param = none ∨
    ∃ s, param = some (.str s) ∧ (leadingDigits s = [] ∨ ∀ c ∈ leadingDigits s, c = '0')

/-- Three stored documents, one of them in city X. -/
def sampleDocs : List Doc :=
  [[("name", "a"), ("city", "X")], [("name", "b"), ("city", "Y")], [("name", "c"), ("city", "Y")]]

/-- The request query of `?price[gt]=100&select=name&page=2`. -/
def sampleQuery : Query :=
  [("price", .obj [("gt", .str "100")]), ("select", .str "name"), ("page", .str "2")]

/-- A collection that accepts every query and holds nothing. -/
def emptyModel : Model :=
  { countDocuments := fun _ => .ok 0, exec := fun _ => .ok [] }

/-! ## Spec-side description of the operator rewrite -/

/-- The word that starts at the front of the text is one of the operators. -/
def isTok (l : List Char) : Bool := decide (l.takeWhile isWordChar ∈ operators)

/-- Character-by-character description of the rewrite: a `$` goes in front of
every position where an operator word starts and the character before does not
block it; `after c` tells whether `c` blocks the position behind it. -/
def rewriteFrom (after : Char → Bool) : Bool → List Char → List Char
  | _, [] => []
  | blocked, c :: cs =>
    (if !blocked && isTok (c :: cs) then ['$', c] else [c]) ++ rewriteFrom after (after c) cs

/-- Number of positions where `rewriteFrom` puts a `$`. -/
def countFrom (after : Char → Bool) : Bool → List Char → Nat
  | _, [] => 0
  | blocked, c :: cs =>
    (if !blocked && isTok (c :: cs) then 1 else 0) + countFrom after (after c) cs

/-- Number of standalone (whole-word) operators of a text. -/
def countStandalone (s : String) : Nat := countFrom isWordChar false s.data

/-- The text with a `$` put in front of every standalone (whole-word) operator:
in front of every position where one of the words `gt`, `gte`, `lt`, `lte`, `in`
starts that no word character precedes.  This is the claims' reading of the
rewrite, on a filter text as on a single key or string value. -/
def prefixStandalone (s : String) : String := String.mk (rewriteFrom isWordChar false s.data)

/-- Characters that block the position behind them in a serialised string: word
characters, and control characters (their escapes end in a letter or digit). -/
def blocksOperator (c : Char) : Bool := isWordChar c || decide (c.toNat < 32)

/-- The rewrite as it acts on one key or string value through the serialised
text: every standalone operator that does not directly follow a control
character gets a `$` in front. -/
def prefixOperators (s : String) : String := String.mk (rewriteFrom blocksOperator false s.data)

mutual
/-- Apply `f` to every key and every string value. -/
def QVal.mapStrings (f : String → String) : QVal → QVal
  | .str s => .str (f s)
  | .arr xs => .arr (QVal.mapElems f xs)
  | .obj props => .obj (QVal.mapMembers f props)
/-- Apply `f` through the elements of an array. -/
def QVal.mapElems (f : String → String) : List QVal → List QVal
  | [] => []
  | x :: rest => QVal.mapStrings f x :: QVal.mapElems f rest
/-- Apply `f` through the members of an object. -/
def QVal.mapMembers (f : String → String) : List (String × QVal) → List (String × QVal)
  | [] => []
  | (k, v) :: rest => (f k, QVal.mapStrings f v) :: QVal.mapMembers f rest
end

mutual
/-- Every object of the value has pairwise distinct keys, as a JavaScript object
has. -/
def QVal.distinctKeys : QVal → Bool
  | .str _ => true
  | .arr xs => QVal.distinctKeysElems xs
  | .obj props => decide ((props.map Prod.fst).Nodup) && QVal.distinctKeysMembers props
/-- Distinct keys throughout the elements of an array. -/
def QVal.distinctKeysElems : List QVal → Bool
  | [] => true
  | x :: rest => QVal.distinctKeys x && QVal.distinctKeysElems rest
/-- Distinct keys throughout the member values of an object. -/
def QVal.distinctKeysMembers : List (String × QVal) → Bool
  | [] => true
  | (_, v) :: rest => QVal.distinctKeys v && QVal.distinctKeysMembers rest
end

mutual
/-- A value written like `stringifyVal`, with `g` giving the text between the
quotes of each key and string. -/
def renderVal (g : String → List Char) : QVal → List Char
  | .str s => '\x22' :: (g s ++ ['\x22'])
  | .arr xs => '[' :: (renderElems g xs ++ [']'])
  | .obj props => '\x7b' :: (renderMembers g props ++ ['\x7d'])
/-- Elements written like `stringifyElems`. -/
def renderElems (g : String → List Char) : List QVal → List Char
  | [] => []
  | [x] => renderVal g x
  | x :: y :: rest => renderVal g x ++ ',' :: renderElems g (y :: rest)
/-- Members written like `stringifyMembers`. -/
def renderMembers (g : String → List Char) : List (String × QVal) → List Char
  | [] => []
  | [(k, v)] => ('\x22' :: (g k ++ ['\x22'])) ++ ':' :: renderVal g v
  | (k, v) :: kv :: rest =>
    ('\x22' :: (g k ++ ['\x22'])) ++ ':' :: (renderVal g v ++ ',' :: renderMembers g (kv :: rest))
end

/-- The rewritten text between the quotes of a serialised key or string. -/
def rewrittenBody (s : String) : List Char := rewriteFrom isWordChar false (escapeChars s.data)

/-- The characters a value can start with. -/
def opensValue (c : Char) : Prop := c = '\x22' ∨ c = '[' ∨ c = '\x7b'


/-! ## Property lists -/

theorem lookupProp_setProp_self {α : Type} (k : String) (v : α) (l : List (String × α)) :
    lookupProp k (setProp k v l) = some v := by
  induction l with
  | nil => simp [setProp, lookupProp]
  | cons kv rest ih =>
    obtain ⟨k', v'⟩ := kv
    by_cases h : k' = k
    · simp [setProp, lookupProp, h]
    · simp [setProp, lookupProp, h, ih]

theorem lookupProp_setProp_ne {α : Type} (k j : String) (v : α) (l : List (String × α))
    (hne : k ≠ j) : lookupProp j (setProp k v l) = lookupProp j l := by
  induction l with
  | nil => simp [setProp, lookupProp, hne]
  | cons kv rest ih =>
    obtain ⟨k', v'⟩ := kv
    by_cases h : k' = k
    · subst h
      simp [setProp, lookupProp, hne]
    · simp [setProp, lookupProp, h, ih]

theorem get_set_message (err : ErrVal) (v : JSVal) :
    (err.spread.set "message" v).get "message" = v := by
  simp [ErrVal.get, ErrVal.set, ErrVal.spread, lookupProp_setProp_self]

theorem get_set_statusCode (err : ErrVal) (v : JSVal) :
    (err.spread.set "message" v).get "statusCode" = ownProp err "statusCode" := by
  have hne : ("message" : String) ≠ "statusCode" := by decide
  simp only [ErrVal.get, ErrVal.set, ErrVal.spread, ownProp, lookupProp_setProp_ne _ _ _ _ hne]
  cases lookupProp "statusCode" err.own <;> simp [lookupProp]

/-- The translator on an error that takes none of the three Mongoose branches. -/
theorem errorHandleer_plain (err : ErrVal)
    (hcast : strictEqStr (err.get "name") "CastError" = false)
    (hdup : strictEqNum (err.get "code") 11000 = false)
    (hval : strictEqStr (err.get "name") "ValidationError" = false) :
    errorHandleer err =
      .ok { status := jsOr (ownProp err "statusCode") (.num 500)
            body := errorBody (jsOr (err.get "message") (.str "Server Error")) } := by
  simp [errorHandleer, hcast, hdup, hval, get_set_message, get_set_statusCode]

theorem mapMessages_ok (vals : List JSVal) (h : vals.all (fun v => !v.nullish) = true) :
    ∃ ms, mapMessages vals = .ok ms := by
  induction vals with
  | nil => exact ⟨[], rfl⟩
  | cons v rest ih =>
    simp only [List.all_cons, Bool.and_eq_true] at h
    obtain ⟨ms, hms⟩ := ih h.2
    have hv : ∃ m, readMessage v = .ok m := by
      cases v <;> simp [readMessage, JSVal.nullish] at h ⊢
      case obj props => cases lookupProp "message" props <;> simp
    obtain ⟨m, hm⟩ := hv
    exact ⟨m :: ms, by simp [mapMessages, hm, hms]⟩

theorem readable_values (errors : JSVal) (h : readableErrors errors = true) :
    ∃ vals ms, objectValues errors = .ok vals ∧ mapMessages vals = .ok ms := by
  cases errors with
  | undefined => simp [readableErrors] at h
  | null => simp [readableErrors] at h
  | bool b => exact ⟨[], [], rfl, rfl⟩
  | num n => exact ⟨[], [], rfl, rfl⟩
  | str s =>
    have hall : ∀ l : List Char, (codeUnitStrings l).all (fun v => !v.nullish) = true := by
      intro l
      induction l with
      | nil => rfl
      | cons c cs ih =>
        rw [codeUnitStrings]
        split
        · rw [List.all_cons, ih]
          rfl
        · rw [List.all_cons, List.all_cons, ih]
          rfl
    obtain ⟨ms, hms⟩ := mapMessages_ok (codeUnitStrings s.data) (hall s.data)
    exact ⟨_, ms, rfl, hms⟩
  | arr xs =>
    obtain ⟨ms, hms⟩ := mapMessages_ok xs (by simpa [readableErrors] using h)
    exact ⟨xs, ms, rfl, hms⟩
  | obj props =>
    have hall : (props.map Prod.snd).all (fun v => !v.nullish) = true := by
      simp only [readableErrors, List.all_eq_true] at h
      simp only [List.all_eq_true, List.mem_map]
      rintro v ⟨kv, hkv, rfl⟩
      exact h kv hkv
    obtain ⟨ms, hms⟩ := mapMessages_ok (props.map Prod.snd) hall
    exact ⟨_, ms, rfl, hms⟩

/-! ## The error translator -/

/-- C8 (as amended): an error that is no cast failure, duplicate-key violation or
validation failure and carries its own non-zero `statusCode` and a non-empty
`message` is answered with that status and `{success: false, error: message}`. -/
theorem errorHandleer_application_error (err : ErrVal) (msg : String) (code : Int)
    (hcast : strictEqStr (err.get "name") "CastError" = false)
    (hdup : strictEqNum (err.get "code") 11000 = false)
    (hval : strictEqStr (err.get "name") "ValidationError" = false)
    (hstatus : ownProp err "statusCode" = .num code)
    (hmessage : err.get "message" = .str msg)
    (hcode : code ≠ 0) (hmsg : msg ≠ "") :
    errorHandleer err = .ok { status := .num code, body := errorBody (.str msg) } := by
  rw [errorHandleer_plain err hcast hdup hval, hstatus, hmessage]
  simp [jsOr, JSVal.truthy, hcode, hmsg]

/-- Witness of C8: the error object of `getBootcampById`. -/
theorem errorHandleer_application_error_witness :
    errorHandleer (ErrorResponse (.str "Bootcamp not found with id: 1") (.num 404)) =
      .ok { status := .num 404, body := errorBody (.str "Bootcamp not found with id: 1") } :=
  errorHandleer_application_error _ "Bootcamp not found with id: 1" 404
    rfl rfl rfl rfl rfl (by decide) (by decide)

/-- Counterexample to C8 as stated: an Error Object with an empty message is
answered with "Server Error", one with status code 0 with status 500. -/
theorem errorHandleer_application_error_counterexample :
    errorHandleer (ErrorResponse (.str "") (.num 404)) =
        .ok { status := .num 404, body := errorBody (.str "Server Error") }
      ∧ errorHandleer (ErrorResponse (.str "") (.num 404)) ≠
        .ok { status := .num 404, body := errorBody (.str "") }
      ∧ errorHandleer (ErrorResponse (.str "gone") (.num 0)) =
        .ok { status := .num 500, body := errorBody (.str "gone") } := by
  refine ⟨rfl, ?_, rfl⟩
  intro h
  have h2 : errorHandleer (ErrorResponse (.str "") (.num 404)) =
        .ok { status := .num 404, body := errorBody (.str "Server Error") } := rfl
  rw [h2] at h
  simp [errorBody] at h

/-- C9 (as amended): an error that is no cast failure, duplicate-key violation or
validation failure and has no truthy `statusCode` of its own is answered with
status 500 and its own message, with "Server Error" only when that message is
missing or empty. -/
theorem errorHandleer_other_error (err : ErrVal)
    (hcast : strictEqStr (err.get "name") "CastError" = false)
    (hdup : strictEqNum (err.get "code") 11000 = false)
    (hval : strictEqStr (err.get "name") "ValidationError" = false)
    (hstatus : (ownProp err "statusCode").truthy = false) :
    errorHandleer err =
        .ok { status := .num 500
              body := errorBody (if (err.get "message").truthy then err.get "message"
                                 else .str "Server Error") } := by
  rw [errorHandleer_plain err hcast hdup hval]
  simp [jsOr, hstatus]

/-- Witness of C9: a thrown value without any property. -/
theorem errorHandleer_other_error_witness :
    errorHandleer { own := [], hidden := [] } =
      .ok { status := .num 500, body := errorBody (.str "Server Error") } :=
  errorHandleer_other_error { own := [], hidden := [] } rfl rfl rfl rfl

/-- Counterexample to C9 as stated: a plain `Error("boom")` is answered with its
own message, not with "Server Error". -/
theorem errorHandleer_other_error_counterexample :
    errorHandleer { own := [], hidden := [("message", .str "boom"), ("name", .str "Error")] } =
        .ok { status := .num 500, body := errorBody (.str "boom") }
      ∧ errorHandleer { own := [], hidden := [("message", .str "boom"), ("name", .str "Error")] } ≠
        .ok { status := .num 500, body := errorBody (.str "Server Error") } := by
  refine ⟨rfl, ?_⟩
  intro h
  have h2 : errorHandleer { own := [], hidden := [("message", .str "boom"), ("name", .str "Error")] } =
        .ok { status := .num 500, body := errorBody (.str "boom") } := rfl
  rw [h2] at h
  simp [errorBody] at h

/-- C10 (as amended): the translator does not throw and sends one response of the
shape `{success: false, error: message}` for every error value whose `errors`
field, when the error is named 'ValidationError', is neither `undefined` nor
`null` and has no `undefined` or `null` entry. -/
theorem errorHandleer_responds (err : ErrVal)
    (hshape : strictEqStr (err.get "name") "ValidationError" = true →
      readableErrors (err.get "errors") = true) :
    ∃ status message,
      errorHandleer err = .ok { status := status, body := errorBody message } := by
  by_cases hval : strictEqStr (err.get "name") "ValidationError" = true
  · obtain ⟨vals, ms, hv, hm⟩ := readable_values _ (hshape hval)
    exact ⟨_, _, by simp only [errorHandleer, hval, hv, hm]; rfl⟩
  · simp only [Bool.not_eq_true] at hval
    simp only [errorHandleer, hval]
    exact ⟨_, _, rfl⟩

/-- Witness of C10: a Mongoose validation error with one failed field. -/
theorem errorHandleer_responds_witness :
    ∃ status message,
      errorHandleer
        { own := [("errors", .obj [("name", .obj [("message", .str "Please add a name")])])]
          hidden := [("name", .str "ValidationError"), ("message", .str "Validation failed")] } =
        .ok { status := status, body := errorBody message } :=
  errorHandleer_responds _ (fun _ => rfl)

/-- Counterexample to C10 as stated: an error named 'ValidationError' without an
`errors` field makes the translator throw a `TypeError`, and so does one whose
`errors` has a `null` entry; no response is sent. -/
theorem errorHandleer_responds_counterexample :
    errorHandleer { own := [("name", .str "ValidationError")], hidden := [] } =
        .error (typeError "Cannot convert undefined or null to object")
      ∧ (¬ ∃ r, errorHandleer { own := [("name", .str "ValidationError")], hidden := [] } = .ok r)
      ∧ errorHandleer { own := [("name", .str "ValidationError"),
                                ("errors", .obj [("title", .null)])], hidden := [] } =
        .error (typeError "Cannot read properties of null (reading 'message')") := by
  refine ⟨rfl, ?_, rfl⟩
  rintro ⟨r, h⟩
  have h2 : errorHandleer { own := [("name", .str "ValidationError")], hidden := [] } =
        .error (typeError "Cannot convert undefined or null to object") := rfl
  rw [h2] at h
  cases h

/-! ## Pagination of `getBootcamps` -/

theorem copyAndStrip_reqDotQuery (query : Query) : (copyAndStrip query).reqDotQuery = query := rfl

/-- Shape of every response of `getBootcamps`: the filter of lines 17-19 is what
the query is built on, and the count is taken without conditions. -/
theorem getBootcamps_ok (M : Model) (query : Query) (resp : ListResponse)
    (h : getBootcamps M query = .ok resp) :
    ∃ total docs, M.countDocuments none = .ok total ∧
      (∃ filter select sortBy, filterOf query = some filter ∧
        M.exec { conditions := filter, populate := ["courses"], select := select,
                 sort := sortBy, skip := (pageOf query - 1) * limitOf query,
                 limit := limitOf query } = .ok docs) ∧
      resp = { status := 200, success := true, count := docs.length,
               pagination := paginationOf (pageOf query) (limitOf query) total, data := docs } := by
  unfold getBootcamps at h
  simp only [copyAndStrip_reqDotQuery] at h
  split at h
  · cases h
  · rename_i filter hfilter
    split at h
    · cases h
    · rename_i select _
      split at h
      · cases h
      · rename_i sort _
        split at h
        · cases h
        · rename_i total htotal
          split at h
          · cases h
          · rename_i docs hdocs
            injection h with h
            exact ⟨total, docs, htotal, ⟨filter, select, _, hfilter, hdocs⟩, h.symm⟩

/-! ### Rounding to a double -/

theorem roundNat_small (m : Nat) (h : m < 2 ^ 53) : roundNat m = some m := by
  unfold roundNat
  rw [if_pos h]

theorem shiftCount_div (fuel q : Nat) (hq : q ≤ fuel) (h52 : 2 ^ 52 ≤ q) :
    2 ^ 52 ≤ q / 2 ^ shiftCount fuel q := by
  induction fuel generalizing q with
  | zero =>
    have : (0 : Nat) < 2 ^ 52 := Nat.two_pow_pos 52
    omega
  | succ f ih =>
    rw [shiftCount]
    by_cases hlt : q < 2 ^ 53
    · rw [if_pos hlt, Nat.pow_zero, Nat.div_one]
      exact h52
    · rw [if_neg hlt]
      have h2 : 2 ^ 52 ≤ q / 2 := by
        have : (2 : Nat) ^ 53 = 2 * 2 ^ 52 := by norm_num
        omega
      have h3 : q / 2 ≤ f := by omega
      have e : 2 ^ (shiftCount f (q / 2) + 1) = 2 * 2 ^ shiftCount f (q / 2) := by
        rw [Nat.pow_succ, Nat.mul_comm]
      rw [e, ← Nat.div_div_eq_div_mul]
      exact ih (q / 2) h3 h2

theorem roundNat_big (m : Nat) (hlt : ¬ m < 2 ^ 53) :
    roundNat m = none ∨
      ∃ q1, m / 2 ^ shiftCount m m ≤ q1 ∧ roundNat m = some (q1 * 2 ^ shiftCount m m) := by
  unfold roundNat
  rw [if_neg hlt]
  dsimp only
  split
  · exact Or.inl rfl
  · refine Or.inr ⟨_, ?_, rfl⟩
    unfold roundSignificand
    split <;> omega

theorem roundNat_pos (m v : Nat) (hm : 1 ≤ m) (h : roundNat m = some v) : 1 ≤ v := by
  by_cases hlt : m < 2 ^ 53
  · rw [roundNat_small m hlt] at h
    injection h with h
    omega
  · have h52 : 2 ^ 52 ≤ m := by
      have : (2 : Nat) ^ 53 = 2 * 2 ^ 52 := by norm_num
      omega
    have hq := shiftCount_div m m (Nat.le_refl m) h52
    have hq1 : 1 ≤ m / 2 ^ shiftCount m m := by
      have : (1 : Nat) ≤ 2 ^ 52 := Nat.one_le_two_pow
      omega
    have hpow : 1 ≤ 2 ^ shiftCount m m := Nat.one_le_two_pow
    rcases roundNat_big m hlt with hn | ⟨q1, hle, hs⟩
    · rw [hn] at h
      cases h
    · rw [hs] at h
      injection h with h
      rw [← h]
      exact Nat.mul_pos (by omega) hpow

theorem roundDouble_exact (x : Int) (h : x.natAbs < 2 ^ 53) : roundDouble x = .int x := by
  rw [roundDouble, roundNat_small _ h]
  simp only
  by_cases hx : x < 0
  · simp only [hx, if_true]
    congr 1
    omega
  · simp only [hx, if_false]
    congr 1
    omega

/-- A number is positive: `0 < a`. -/
theorem lt_zero_iff (a : JSNum) :
    JSNum.lt 0 a = true ↔ a = .inf false ∨ ∃ n : Int, 0 < n ∧ a = .int n := by
  cases a with
  | nan =>
    constructor
    · intro h
      cases h
    · rintro (h | ⟨n, _, h⟩) <;> cases h
  | inf b =>
    cases b
    · constructor
      · intro _
        exact Or.inl rfl
      · intro _
        rfl
    · constructor
      · intro h
        cases h
      · rintro (h | ⟨n, _, h⟩) <;> cases h
  | int n =>
    constructor
    · intro h
      have : (0 : Int) < n := by
        have h2 : decide ((0 : Int) < n) = true := h
        simpa using h2
      exact Or.inr ⟨n, this, rfl⟩
    · rintro (h | ⟨k, hk, h⟩)
      · cases h
      · cases h
        show decide ((0 : Int) < n) = true
        simpa using hk

theorem roundDouble_pos (x : Int) (hx : 0 < x) : JSNum.lt 0 (roundDouble x) = true := by
  rw [lt_zero_iff, roundDouble]
  have hneg : ¬ x < 0 := by omega
  cases hr : roundNat x.natAbs with
  | none =>
    left
    simp [hneg]
  | some v =>
    right
    have := roundNat_pos _ v (by omega) hr
    exact ⟨v, by omega, by simp [hneg]⟩

theorem roundDouble_truthy (x : Int) (hx : x ≠ 0) : (roundDouble x).truthy = true := by
  rw [roundDouble]
  cases hr : roundNat x.natAbs with
  | none => rfl
  | some v =>
    have := roundNat_pos _ v (by omega) hr
    simp only [JSNum.truthy]
    by_cases hneg : x < 0
    · simp only [hneg, if_true, bne_iff_ne, ne_eq]
      omega
    · simp only [hneg, if_false, bne_iff_ne, ne_eq]
      omega

theorem mul_pos_of_pos (a b : JSNum) (ha : JSNum.lt 0 a = true) (hb : JSNum.lt 0 b = true) :
    JSNum.lt 0 (a * b) = true := by
  rw [lt_zero_iff] at ha hb
  rcases ha with rfl | ⟨n, hn, rfl⟩ <;> rcases hb with rfl | ⟨k, hk, rfl⟩
  · rfl
  · have h0 : ¬ k = 0 := by omega
    have h1 : ¬ k < 0 := by omega
    show JSNum.lt 0 (JSNum.mul (.inf false) (.int k)) = true
    simp [JSNum.mul, h0, h1, JSNum.lt]
  · have h0 : ¬ n = 0 := by omega
    have h1 : ¬ n < 0 := by omega
    show JSNum.lt 0 (JSNum.mul (.int n) (.inf false)) = true
    simp [JSNum.mul, h0, h1, JSNum.lt]
  · show JSNum.lt 0 (roundDouble (n * k)) = true
    exact roundDouble_pos _ (Int.mul_pos hn hk)

theorem sub_one_pos (page : JSNum) (h : JSNum.lt 1 page = true) :
    JSNum.lt 0 (page - 1) = true := by
  cases page with
  | nan => cases h
  | inf b =>
    cases b
    · rfl
    · cases h
  | int p =>
    have hp : (1 : Int) < p := by
      have h2 : decide ((1 : Int) < p) = true := h
      simpa using h2
    show JSNum.lt 0 (roundDouble (p + -1)) = true
    exact roundDouble_pos _ (by omega)

/-! ### `parseInt` -/

theorem digitsValue_zeros (ds : List Char) (h : ∀ c ∈ ds, c = '0') : digitsValue ds = 0 := by
  unfold digitsValue
  suffices H : ∀ acc, acc = 0 → List.foldl (fun acc d => acc * 10 + (d.toNat - 48)) acc ds = 0 from
    H 0 rfl
  induction ds with
  | nil => intro acc hacc; simpa using hacc
  | cons d rest ih =>
    intro acc hacc
    have hd : d = '0' := h d (List.mem_cons_self _ _)
    subst hd
    simp only [List.foldl_cons]
    apply ih (fun c hc => h c (List.mem_cons_of_mem _ hc))
    subst hacc
    decide

theorem foldl_digits_ge (ds : List Char) (acc : Nat) :
    acc ≤ List.foldl (fun acc d => acc * 10 + (d.toNat - 48)) acc ds := by
  induction ds generalizing acc with
  | nil => simp
  | cons d rest ih =>
    simp only [List.foldl_cons]
    have := ih (acc * 10 + (d.toNat - 48))
    omega

theorem digit_ne_zero (c : Char) (hd : isDecDigit c = true) (hc : c ≠ '0') : 1 ≤ c.toNat - 48 := by
  simp only [isDecDigit, Bool.and_eq_true, decide_eq_true_eq] at hd
  have hne : c.toNat ≠ 48 := by
    intro h48
    apply hc
    rw [← Char.ofNat_toNat c, h48]
  omega

theorem digitsValue_pos (ds : List Char) (hd : ∀ c ∈ ds, isDecDigit c = true)
    (hnz : ∃ c ∈ ds, c ≠ '0') : 0 < digitsValue ds := by
  unfold digitsValue
  suffices H : ∀ acc, 0 < List.foldl (fun acc d => acc * 10 + (d.toNat - 48)) acc ds from H 0
  induction ds with
  | nil =>
    obtain ⟨c, hc, _⟩ := hnz
    cases hc
  | cons d rest ih =>
    intro acc
    simp only [List.foldl_cons]
    by_cases hd0 : d = '0'
    · obtain ⟨c, hc, hcne⟩ := hnz
      have hcr : c ∈ rest := by
        rcases List.mem_cons.1 hc with h | h
        · exact absurd (h.trans hd0) hcne
        · exact h
      exact ih (fun x hx => hd x (List.mem_cons_of_mem _ hx)) ⟨c, hcr, hcne⟩ _
    · have h1 := digit_ne_zero d (hd d (List.mem_cons_self _ _)) hd0
      have h2 := foldl_digits_ge rest (acc * 10 + (d.toNat - 48))
      omega

theorem leadingDigits_digits (s : String) : ∀ c ∈ leadingDigits s, isDecDigit c = true := by
  intro c hc
  exact (List.mem_takeWhile_imp hc)

theorem parseInt_eq (s : String) :
    parseInt s = if leadingDigits s = [] then .nan
      else roundDouble (leadingSign s * (digitsValue (leadingDigits s) : Int)) :=
  rfl

theorem leadingSign_ne_zero (s : String) : leadingSign s ≠ 0 := by
  unfold leadingSign
  generalize s.data.dropWhile isStrWhiteSpace = l
  cases l with
  | nil => simp [splitSign]
  | cons c rest =>
    rw [splitSign]
    split
    · simp
    · split <;> simp

theorem parseIntOr_absent (param : Option QVal) (dflt : JSNum) (h : ReadsAsAbsent param) :
    parseIntOr param dflt = dflt := by
  rcases h with h | ⟨s, hs, h⟩
  · subst h
    rfl
  · subst hs
    have hstr : paramToStr (some (QVal.str s)) = s := by simp [paramToStr, QVal.toStr]
    simp only [parseIntOr, hstr, parseInt_eq]
    by_cases hnil : leadingDigits s = []
    · simp [hnil, JSNum.truthy]
    · rcases h with h | h
      · exact absurd h hnil
      · have hz : roundDouble (leadingSign s * ((digitsValue (leadingDigits s) : Nat) : Int))
            = .int 0 := by
          rw [digitsValue_zeros _ h]
          simp [roundDouble_exact]
        simp [hnil, hz, JSNum.truthy]

theorem parseIntOr_number (s : String) (dflt : JSNum) (hnz : ∃ c ∈ leadingDigits s, c ≠ '0') :
    parseIntOr (some (.str s)) dflt
      = roundDouble (leadingSign s * (digitsValue (leadingDigits s) : Int)) := by
  have hstr : paramToStr (some (QVal.str s)) = s := by simp [paramToStr, QVal.toStr]
  have hne : leadingDigits s ≠ [] := by
    obtain ⟨c, hc, _⟩ := hnz
    intro hnil
    rw [hnil] at hc
    cases hc
  have hpos := digitsValue_pos _ (leadingDigits_digits s) hnz
  have hx : leadingSign s * (digitsValue (leadingDigits s) : Int) ≠ 0 := by
    apply Int.mul_ne_zero (leadingSign_ne_zero s)
    omega
  simp only [parseIntOr, hstr, parseInt_eq, hne, if_false, roundDouble_truthy _ hx, if_true]

/-! ### The claims on pagination -/

/-- The model follows the doubles of the code beyond `2^53`: `parseInt` rounds
the digits to the nearest double, and so do `page - 1` and `page + 1`. -/
theorem pagination_beyond_safe_integers :
    pageOf [("page", .str "9007199254740993")] = .int 9007199254740992
      ∧ limitOf [("limit", .str "-9007199254740993")] = .int (-9007199254740992)
      ∧ (paginationOf (.int 9007199254740994) 1 0).previous
          = some { page := .int 9007199254740992, limit := 1 }
      ∧ (paginationOf (.int 9007199254740992) (-1) 0).next
          = some { page := .int 9007199254740992, limit := -1 } :=
  ⟨rfl, rfl, rfl, rfl⟩

/-- C2: whenever `getBootcamps` responds, `pagination.next` is present exactly
when `page * limit < total`, and is then `{page: page + 1, limit: limit}`; the
product, the sum and the comparison are those of the handler's numbers, and they
are the exact integer ones whenever `page * limit`, `page + 1` and `total` stay
below `2^53` in absolute value. -/
theorem getBootcamps_pagination_next (M : Model) (query : Query) (resp : ListResponse)
    (h : getBootcamps M query = .ok resp) :
    ∃ total, M.countDocuments none = .ok total ∧
      (resp.pagination.next.isSome = true ↔
        JSNum.lt (pageOf query * limitOf query) (JSNum.ofCount total) = true) ∧
      (∀ r, resp.pagination.next = some r →
        r = { page := pageOf query + 1, limit := limitOf query }) ∧
      (∀ p l : Int, pageOf query = .int p → limitOf query = .int l →
        (p * l).natAbs < 2 ^ 53 → (p + 1).natAbs < 2 ^ 53 → total < 2 ^ 53 →
        (resp.pagination.next.isSome = true ↔ p * l < (total : Int)) ∧
        (∀ r, resp.pagination.next = some r → r = { page := .int (p + 1), limit := .int l })) := by
  obtain ⟨total, docs, htotal, _, hresp⟩ := getBootcamps_ok M query resp h
  subst hresp
  have hnext : ∀ r, (paginationOf (pageOf query) (limitOf query) total).next = some r →
      r = { page := pageOf query + 1, limit := limitOf query } := by
    intro r hr
    cases hlt : JSNum.lt (pageOf query * limitOf query) (JSNum.ofCount total)
    · simp [paginationOf, hlt] at hr
    · simp only [paginationOf, hlt, if_true, Option.some.injEq] at hr
      exact hr.symm
  have hiff : (paginationOf (pageOf query) (limitOf query) total).next.isSome = true ↔
      JSNum.lt (pageOf query * limitOf query) (JSNum.ofCount total) = true := by
    cases hlt : JSNum.lt (pageOf query * limitOf query) (JSNum.ofCount total) <;>
      simp [paginationOf, hlt]
  refine ⟨total, htotal, hiff, hnext, ?_⟩
  intro p l hp hl hpl hp1 ht
  have hmul : pageOf query * limitOf query = .int (p * l) := by
    rw [hp, hl]
    exact roundDouble_exact _ hpl
  have hadd : pageOf query + 1 = .int (p + 1) := by
    rw [hp]
    exact roundDouble_exact _ hp1
  have hcount : JSNum.ofCount total = .int (total : Int) :=
    roundDouble_exact _ (by simpa using ht)
  constructor
  · rw [hiff, hmul, hcount]
    simp [JSNum.lt]
  · intro r hr
    rw [hnext r hr, hadd, hl]

/-- Witness of C2: page 1 with limit 1 of the three sample documents. -/
theorem getBootcamps_pagination_next_witness :
    ∃ total, (memModel sampleDocs).countDocuments none = .ok total ∧
      ((some ({ page := 2, limit := 1 } : PageRef)).isSome = true ↔
        JSNum.lt (pageOf [("limit", .str "1")] * limitOf [("limit", .str "1")])
          (JSNum.ofCount total) = true) ∧
      (∀ r, some ({ page := 2, limit := 1 } : PageRef) = some r →
        r = { page := pageOf [("limit", .str "1")] + 1,
              limit := limitOf [("limit", .str "1")] }) ∧
      (∀ p l : Int, pageOf [("limit", .str "1")] = .int p →
        limitOf [("limit", .str "1")] = .int l →
        (p * l).natAbs < 2 ^ 53 → (p + 1).natAbs < 2 ^ 53 → total < 2 ^ 53 →
        ((some ({ page := 2, limit := 1 } : PageRef)).isSome = true ↔ p * l < (total : Int)) ∧
        (∀ r, some ({ page := 2, limit := 1 } : PageRef) = some r →
          r = { page := .int (p + 1), limit := .int l })) :=
  getBootcamps_pagination_next (memModel sampleDocs) [("limit", .str "1")]
    { status := 200, success := true, count := 1,
      pagination := { next := some { page := 2, limit := 1 }, previous := none },
      data := [docToJS [("name", "a"), ("city", "X")]] } rfl

/-- C1 (the code at the failing input): of three documents one matches the
filter `city = X`; with `limit=1` the handler still announces a next page,
because `total` counts every document of the collection. -/
theorem getBootcamps_total_counts_every_document :
    filterOf [("city", .str "X"), ("limit", .str "1"), ("page", .str "1")] =
        some (.obj [("city", .str "X")])
      ∧ (memModel sampleDocs).countDocuments (some (.obj [("city", .str "X")])) = .ok 1
      ∧ (memModel sampleDocs).countDocuments none = .ok 3
      ∧ getBootcamps (memModel sampleDocs)
          [("city", .str "X"), ("limit", .str "1"), ("page", .str "1")] =
        .ok { status := 200, success := true, count := 1,
              pagination := { next := some { page := 2, limit := 1 }, previous := none },
              data := [docToJS [("name", "a"), ("city", "X")]] } :=
  ⟨rfl, rfl, rfl, rfl⟩

/-- C3 (as amended): whenever `getBootcamps` responds to a request whose page is
greater than 1 and whose limit is positive, `pagination.previous` is
`{page: page - 1, limit: limit}`, the difference being the one of the handler's
numbers, which is the exact one for every page up to `2^53`; for page 1 it is
absent. -/
theorem getBootcamps_pagination_previous (M : Model) (query : Query) (resp : ListResponse)
    (h : getBootcamps M query = .ok resp) :
    (JSNum.lt 1 (pageOf query) = true → JSNum.lt 0 (limitOf query) = true →
        resp.pagination.previous = some { page := pageOf query - 1, limit := limitOf query })
      ∧ (pageOf query = 1 → resp.pagination.previous = none)
      ∧ (∀ p : Int, pageOf query = .int p → 1 < p → p ≤ 2 ^ 53 →
        JSNum.lt 0 (limitOf query) = true →
        resp.pagination.previous = some { page := .int (p - 1), limit := limitOf query }) := by
  obtain ⟨total, docs, _, _, hresp⟩ := getBootcamps_ok M query resp h
  subst hresp
  have hprev : JSNum.lt 1 (pageOf query) = true → JSNum.lt 0 (limitOf query) = true →
      (paginationOf (pageOf query) (limitOf query) total).previous
        = some { page := pageOf query - 1, limit := limitOf query } := by
    intro hp hl
    have hpos := mul_pos_of_pos _ _ (sub_one_pos _ hp) hl
    simp only [paginationOf, hpos, if_true]
  refine ⟨hprev, ?_, ?_⟩
  · intro hp
    rw [hp]
    have hz : ((1 : JSNum) - 1) = .int 0 := by decide
    have h0 : JSNum.lt 0 (((1 : JSNum) - 1) * limitOf query) = false := by
      rw [hz]
      cases limitOf query with
      | nan => rfl
      | inf b => rfl
      | int l =>
        have hm : (JSNum.int 0 * JSNum.int l) = .int 0 := by
          show roundDouble (0 * l) = .int 0
          rw [Int.zero_mul]
          rfl
        rw [hm]
        rfl
    simp only [paginationOf, h0]
    rfl
  · intro p hp h1 h53 hl
    have hlt : JSNum.lt 1 (pageOf query) = true := by
      rw [hp]
      show decide ((1 : Int) < p) = true
      simpa using h1
    rw [hprev hlt hl, hp]
    have : (JSNum.int p - 1 : JSNum) = .int (p - 1) := by
      show roundDouble (p + -1) = .int (p - 1)
      rw [roundDouble_exact _ (by omega)]
      rfl
    rw [this]

/-- Witness of C3: page 2 with limit 1 of the three sample documents. -/
theorem getBootcamps_pagination_previous_witness :
    (JSNum.lt 1 (pageOf [("limit", .str "1"), ("page", .str "2")]) = true →
        JSNum.lt 0 (limitOf [("limit", .str "1"), ("page", .str "2")]) = true →
        some ({ page := 1, limit := 1 } : PageRef) =
          some { page := pageOf [("limit", .str "1"), ("page", .str "2")] - 1,
                 limit := limitOf [("limit", .str "1"), ("page", .str "2")] })
      ∧ (pageOf [("limit", .str "1"), ("page", .str "2")] = 1 →
        some ({ page := 1, limit := 1 } : PageRef) = none)
      ∧ (∀ p : Int, pageOf [("limit", .str "1"), ("page", .str "2")] = .int p → 1 < p →
        p ≤ 2 ^ 53 → JSNum.lt 0 (limitOf [("limit", .str "1"), ("page", .str "2")]) = true →
        some ({ page := 1, limit := 1 } : PageRef) =
          some { page := .int (p - 1),
                 limit := limitOf [("limit", .str "1"), ("page", .str "2")] }) :=
  getBootcamps_pagination_previous (memModel sampleDocs) [("limit", .str "1"), ("page", .str "2")]
    { status := 200, success := true, count := 1,
      pagination := { next := some { page := 3, limit := 1 },
                      previous := some { page := 1, limit := 1 } },
      data := [docToJS [("name", "b"), ("city", "Y")]] } rfl

/-- Counterexample to C3 as stated: with `page=2&limit=-5` the page is greater
than 1, and a collection that accepts the query gets a response without
`previous`; the in-memory collection rejects the negative skip, so no response
is sent at all. -/
theorem getBootcamps_pagination_previous_counterexample :
    pageOf [("page", .str "2"), ("limit", .str "-5")] = 2
      ∧ limitOf [("page", .str "2"), ("limit", .str "-5")] = -5
      ∧ getBootcamps emptyModel [("page", .str "2"), ("limit", .str "-5")] =
        .ok { status := 200, success := true, count := 0,
              pagination := { next := some { page := 3, limit := -5 }, previous := none },
              data := [] }
      ∧ (∀ resp, getBootcamps (memModel sampleDocs) [("page", .str "2"), ("limit", .str "-5")]
          ≠ .ok resp) := by
  refine ⟨rfl, rfl, rfl, ?_⟩
  intro resp h
  have h2 : ∃ e, getBootcamps (memModel sampleDocs) [("page", .str "2"), ("limit", .str "-5")]
      = .error e := ⟨_, rfl⟩
  obtain ⟨e, he⟩ := h2
  rw [he] at h
  cases h

/-- C4 (as amended): a `page` parameter that is absent, or a string without
leading decimal digits (after white space and an optional sign), or a string
whose leading digits are all zero gives page 1, and such a `limit` gives limit
15; a string whose leading digits are not all zero is read as the signed number
these digits denote (as a double), whatever text follows them. -/
theorem getBootcamps_defaults (query : Query) :
    (ReadsAsAbsent (lookupProp "page" query) → pageOf query = 1)
      ∧ (ReadsAsAbsent (lookupProp "limit" query) → limitOf query = 15)
      ∧ (∀ s, lookupProp "page" query = some (.str s) → (∃ c ∈ leadingDigits s, c ≠ '0') →
          pageOf query = roundDouble (leadingSign s * (digitsValue (leadingDigits s) : Int)))
      ∧ (∀ s, lookupProp "limit" query = some (.str s) → (∃ c ∈ leadingDigits s, c ≠ '0') →
          limitOf query = roundDouble (leadingSign s * (digitsValue (leadingDigits s) : Int))) := by
  refine ⟨parseIntOr_absent _ 1, parseIntOr_absent _ 15, ?_, ?_⟩
  · intro s hs hnz
    rw [pageOf, hs]
    exact parseIntOr_number s 1 hnz
  · intro s hs hnz
    rw [limitOf, hs]
    exact parseIntOr_number s 15 hnz

/-- Witness of C4: `page=abc` and no `limit`; `page=2abc` and `limit=07 each`. -/
theorem getBootcamps_defaults_witness :
    pageOf [("page", .str "abc")] = 1 ∧ limitOf [("page", .str "abc")] = 15
      ∧ pageOf [("page", .str "2abc"), ("limit", .str "07 each")] = 2
      ∧ limitOf [("page", .str "2abc"), ("limit", .str "07 each")] = 7 :=
  ⟨(getBootcamps_defaults [("page", .str "abc")]).1
      (Or.inr ⟨"abc", rfl, Or.inl (by decide)⟩),
   (getBootcamps_defaults [("page", .str "abc")]).2.1 (Or.inl rfl),
   (getBootcamps_defaults [("page", .str "2abc"), ("limit", .str "07 each")]).2.2.1 "2abc" rfl
      ⟨'2', by decide, by decide⟩,
   (getBootcamps_defaults [("page", .str "2abc"), ("limit", .str "07 each")]).2.2.2 "07 each" rfl
      ⟨'7', by decide, by decide⟩⟩

/-- Counterexample to C4 as stated: the non-numeric strings `2abc` and
`7 per page` are not treated as absent; their leading digits are used. -/
theorem getBootcamps_defaults_counterexample :
    pageOf [("page", .str "2abc")] = 2 ∧ pageOf [("page", .str "2abc")] ≠ 1
      ∧ limitOf [("limit", .str "7 per page")] = 7
      ∧ limitOf [("limit", .str "7 per page")] ≠ 15 := by
  decide

/-! ## The operator rewrite, character by character -/

theorem takeWhile_append_stop (p : Char → Bool) (l : List Char) (d : Char) (ys : List Char)
    (hd : p d = false) : (l ++ d :: ys).takeWhile p = l.takeWhile p := by
  induction l with
  | nil => simp [List.takeWhile, hd]
  | cons c cs ih =>
    by_cases hc : p c = true
    · simp [List.takeWhile, hc, ih]
    · simp [List.takeWhile, hc]

theorem operators_word : ∀ w ∈ operators, w ≠ [] ∧ ∀ c ∈ w, isWordChar c = true := by
  decide

theorem isTok_append_stop (l : List Char) (d : Char) (ys : List Char)
    (hd : isWordChar d = false) : isTok (l ++ d :: ys) = isTok l := by
  simp [isTok, takeWhile_append_stop _ l d ys hd]

theorem isTok_nonword (d : Char) (ys : List Char) (hd : isWordChar d = false) :
    isTok (d :: ys) = false := by
  simp [isTok, List.takeWhile, hd, operators]

theorem stripFront_eq_some (alt l rest : List Char) :
    stripFront alt l = some rest ↔ l = alt ++ rest := by
  induction alt generalizing l with
  | nil => simp [stripFront, eq_comm]
  | cons p ps ih =>
    cases l with
    | nil => simp [stripFront]
    | cons c cs =>
      by_cases h : p = c
      · subst h
        simp [stripFront, ih]
      · simp only [stripFront, h, if_false, List.cons_append, List.cons.injEq]
        constructor
        · intro hn
          cases hn
        · intro hcp
          exact absurd hcp.1.symm h

theorem takeWhile_append_all (p : Char → Bool) (w r : List Char) (hw : ∀ c ∈ w, p c = true) :
    (w ++ r).takeWhile p = w ++ r.takeWhile p := by
  induction w with
  | nil => rfl
  | cons c cs ih =>
    have hc : p c = true := hw c (List.mem_cons_self _ _)
    simp [List.takeWhile, hc, ih (fun x hx => hw x (List.mem_cons_of_mem _ hx))]

theorem dropWhile_append_all (p : Char → Bool) (w r : List Char) (hw : ∀ c ∈ w, p c = true) :
    (w ++ r).dropWhile p = r.dropWhile p := by
  induction w with
  | nil => rfl
  | cons c cs ih =>
    have hc : p c = true := hw c (List.mem_cons_self _ _)
    simp [List.dropWhile, hc, ih (fun x hx => hw x (List.mem_cons_of_mem _ hx))]

theorem takeWhile_eq_nil_of_head (p : Char → Bool) (r : List Char)
    (h : (match r.head? with | none => false | some c => p c) = false) :
    r.takeWhile p = [] ∧ r.dropWhile p = r := by
  cases r with
  | nil => exact ⟨rfl, rfl⟩
  | cons c cs =>
    simp only [List.head?_cons] at h
    simp [List.takeWhile, List.dropWhile, h]

theorem isWordAt_eq (o : Option Char) :
    isWordAt o = (match o with | none => false | some c => isWordChar c) := by
  cases o <;> rfl

/-- One alternative matches exactly when it is the whole word at the front. -/
theorem matchAlt_eq (alt : List Char) (halt : alt ≠ [] ∧ ∀ c ∈ alt, isWordChar c = true)
    (l : List Char) :
    matchAlt alt l =
      if l.takeWhile isWordChar = alt then some (l.dropWhile isWordChar) else none := by
  have hlast : isWordAt alt.getLast? = true := by
    obtain ⟨hne, hall⟩ := halt
    rw [List.getLast?_eq_getLast _ hne]
    exact hall _ (List.getLast_mem hne)
  unfold matchAlt
  cases hs : stripFront alt l with
  | none =>
    simp only
    split
    · rename_i htw
      exfalso
      have hl : l = alt ++ l.dropWhile isWordChar := by
        conv_lhs => rw [← List.takeWhile_append_dropWhile isWordChar l]
        rw [htw]
      have := (stripFront_eq_some alt l _).2 hl
      rw [hs] at this
      cases this
    · rfl
  | some rest =>
    have hl := (stripFront_eq_some alt l rest).1 hs
    subst hl
    simp only [wordBoundary, hlast]
    rw [takeWhile_append_all _ _ _ halt.2, dropWhile_append_all _ _ _ halt.2]
    by_cases hb : isWordAt rest.head? = true
    · have hne : rest.takeWhile isWordChar ≠ [] := by
        cases rest with
        | nil => simp [isWordAt] at hb
        | cons c cs =>
          simp only [List.head?_cons, isWordAt] at hb
          simp [List.takeWhile, hb]
      simp [hb, hne]
    · simp only [Bool.not_eq_true] at hb
      have := takeWhile_eq_nil_of_head isWordChar rest (by rw [← isWordAt_eq]; exact hb)
      simp [hb, this.1, this.2]

theorem matchAlts_eq (alts : List (List Char))
    (halts : ∀ w ∈ alts, w ≠ [] ∧ ∀ c ∈ w, isWordChar c = true) (l : List Char) :
    matchAlts alts l =
      if l.takeWhile isWordChar ∈ alts then
        some (l.takeWhile isWordChar, l.dropWhile isWordChar)
      else none := by
  induction alts with
  | nil => simp [matchAlts]
  | cons alt rest ih =>
    have h1 := matchAlt_eq alt (halts alt (List.mem_cons_self _ _)) l
    have h2 := ih (fun w hw => halts w (List.mem_cons_of_mem _ hw))
    unfold matchAlts
    rw [h1, h2]
    by_cases ha : l.takeWhile isWordChar = alt
    · simp [ha]
    · have ha2 : ¬ alt = l.takeWhile isWordChar := fun h => ha h.symm
      simp [ha, List.mem_cons]

/-- The pattern matches at a position exactly when the character before is no
word character and the word at the position is an operator. -/
theorem matchAt_eq (before : Option Char) (l : List Char) :
    matchAt before l =
      if !isWordAt before && isTok l then
        some (l.takeWhile isWordChar, l.dropWhile isWordChar)
      else none := by
  unfold matchAt
  rw [matchAlts_eq operators operators_word l]
  by_cases ht : l.takeWhile isWordChar ∈ operators
  · have hhead : isWordAt l.head? = true := by
      obtain ⟨hne, hall⟩ := operators_word _ ht
      cases l with
      | nil => simp at hne
      | cons c cs =>
        by_cases hc : isWordChar c = true
        · simpa [isWordAt] using hc
        · simp [List.takeWhile, hc] at hne
    cases hb : isWordAt before <;> simp [wordBoundary, hb, hhead, isTok, ht]
  · cases hb : isWordAt before <;> simp [wordBoundary, isTok, ht]

theorem rewriteFrom_blocked_word (l : List Char) :
    rewriteFrom isWordChar true l =
      l.takeWhile isWordChar ++ rewriteFrom isWordChar true (l.dropWhile isWordChar) := by
  induction l with
  | nil => rfl
  | cons c cs ih =>
    by_cases hc : isWordChar c = true
    · simp [rewriteFrom, List.takeWhile, List.dropWhile, hc]
      exact ih
    · simp [rewriteFrom, List.takeWhile, List.dropWhile, hc]

/-- The scanning loop computes the character-by-character description. -/
theorem replaceLoop_eq (fuel : Nat) (before : Option Char) (l : List Char)
    (hfuel : l.length < fuel) :
    replaceLoop fuel before l = rewriteFrom isWordChar (isWordAt before) l := by
  induction fuel generalizing before l with
  | zero => omega
  | succ fuel ih =>
    unfold replaceLoop
    rw [matchAt_eq]
    by_cases hm : (!isWordAt before && isTok l) = true
    · simp only [hm, if_true]
      simp only [Bool.and_eq_true, Bool.not_eq_true'] at hm
      obtain ⟨hb, ht⟩ := hm
      have hmem : l.takeWhile isWordChar ∈ operators := by simpa [isTok] using ht
      obtain ⟨hne, hall⟩ := operators_word _ hmem
      have hlast : isWordAt (l.takeWhile isWordChar).getLast? = true := by
        rw [List.getLast?_eq_getLast _ hne]
        exact hall _ (List.getLast_mem hne)
      have hlen : (l.dropWhile isWordChar).length < fuel := by
        have h1 : l.length = (l.takeWhile isWordChar).length + (l.dropWhile isWordChar).length := by
          have := congrArg List.length (List.takeWhile_append_dropWhile isWordChar l)
          simp only [List.length_append] at this
          omega
        have h2 : 0 < (l.takeWhile isWordChar).length := List.length_pos.2 hne
        omega
      rw [ih _ _ hlen, hlast]
      cases l with
      | nil => simp at hne
      | cons c cs =>
        have hc : isWordChar c = true := by
          by_cases hc : isWordChar c = true
          · exact hc
          · simp [List.takeWhile, hc] at hne
        have := rewriteFrom_blocked_word cs
        simp only [rewriteFrom, hb, ht, hc, List.takeWhile, List.dropWhile, Bool.not_false,
          Bool.and_self, if_true, this]
        simp
    · simp only [hm]
      cases l with
      | nil => simp [rewriteFrom]
      | cons c cs =>
        simp only [List.length_cons] at hfuel
        simp only [Bool.false_eq_true, if_false]
        rw [ih _ _ (by omega)]
        simp only [Bool.not_eq_true] at hm
        rw [rewriteFrom, hm]
        simp [isWordAt]

theorem replaceOperators_data (s : String) :
    (replaceOperators s).data = rewriteFrom isWordChar false s.data := by
  simp only [replaceOperators]
  rw [replaceLoop_eq _ _ _ (Nat.lt_succ_self _)]
  rfl

theorem rewriteFrom_append_stop (b : Bool) (xs : List Char) (d : Char) (ys : List Char)
    (hd : isWordChar d = false) :
    rewriteFrom isWordChar b (xs ++ d :: ys) =
      rewriteFrom isWordChar b xs ++ d :: rewriteFrom isWordChar false ys := by
  induction xs generalizing b with
  | nil => simp [rewriteFrom, isTok_nonword d ys hd, hd]
  | cons c cs ih =>
    have := isTok_append_stop (c :: cs) d ys hd
    simp only [List.cons_append] at this
    rw [List.cons_append, rewriteFrom, rewriteFrom, this, ih]
    simp

/-! ## Applying the rewrite twice -/

theorem length_rewriteFrom (after : Char → Bool) (b : Bool) (l : List Char) :
    (rewriteFrom after b l).length = l.length + countFrom after b l := by
  induction l generalizing b with
  | nil => rfl
  | cons c cs ih =>
    rw [rewriteFrom, countFrom, List.length_append, ih]
    cases (!b && isTok (c :: cs))
    · simp only [Bool.false_eq_true, if_false, List.length_cons, List.length_nil]
      omega
    · simp only [if_true, List.length_cons, List.length_nil]
      omega

theorem rewriteFrom_of_count_zero (after : Char → Bool) (b : Bool) (l : List Char)
    (h : countFrom after b l = 0) : rewriteFrom after b l = l := by
  induction l generalizing b with
  | nil => rfl
  | cons c cs ih =>
    rw [countFrom] at h
    have h1 : (if (!b && isTok (c :: cs)) = true then 1 else 0) = 0 := by omega
    have h2 : countFrom after (after c) cs = 0 := by omega
    have h3 : (!b && isTok (c :: cs)) = false := by
      by_cases hh : (!b && isTok (c :: cs)) = true
      · simp [hh] at h1
      · simpa using hh
    rw [rewriteFrom, h3, ih _ h2]
    simp

theorem takeWhile_rewriteFrom_blocked (l : List Char) :
    (rewriteFrom isWordChar true l).takeWhile isWordChar = l.takeWhile isWordChar := by
  induction l with
  | nil => rfl
  | cons c cs ih =>
    by_cases hc : isWordChar c = true
    · simp [rewriteFrom, List.takeWhile, hc, ih]
    · simp [rewriteFrom, List.takeWhile, hc]

theorem isTok_cons_rewriteFrom (c : Char) (cs : List Char) :
    isTok (c :: rewriteFrom isWordChar (isWordChar c) cs) = isTok (c :: cs) := by
  by_cases hc : isWordChar c = true
  · simp [isTok, List.takeWhile, hc, takeWhile_rewriteFrom_blocked]
  · simp [isTok, List.takeWhile, hc]

theorem countFrom_rewriteFrom (b : Bool) (l : List Char) :
    countFrom isWordChar b (rewriteFrom isWordChar b l) = countFrom isWordChar b l := by
  induction l generalizing b with
  | nil => rfl
  | cons c cs ih =>
    have hdollar : isWordChar '$' = false := by decide
    by_cases h : (!b && isTok (c :: cs)) = true
    · have hb : b = false := by
        cases b
        · rfl
        · simp at h
      subst hb
      rw [rewriteFrom, h]
      simp only [if_true, List.cons_append, List.nil_append]
      rw [countFrom, isTok_nonword _ _ hdollar, countFrom, hdollar, isTok_cons_rewriteFrom, ih,
        countFrom]
      simp
    · simp only [Bool.not_eq_true] at h
      rw [rewriteFrom, h]
      simp only [Bool.false_eq_true, if_false, List.cons_append, List.nil_append]
      rw [countFrom, isTok_cons_rewriteFrom, ih, countFrom]

theorem string_eq_iff_data (s t : String) : s = t ↔ s.data = t.data := by
  constructor
  · intro h
    rw [h]
  · intro h
    cases s
    cases t
    simp only at h
    rw [h]

/-- C6 (as amended): the rewrite returns the text with one `$` put in front of
every standalone operator, also of one that already follows a `$` (`$gt`
becomes `$$gt`); its output is longer than the text by the number of standalone
operators and has the operators of the text; so applying the rewrite to its own
output returns that output exactly when the text holds no standalone operator. -/
theorem replaceOperators_twice (s : String) :
    replaceOperators s = prefixStandalone s
      ∧ replaceOperators "$gt" = "$$gt"
      ∧ (replaceOperators s).length = s.length + countStandalone s
      ∧ countStandalone (replaceOperators s) = countStandalone s
      ∧ (replaceOperators (replaceOperators s) = replaceOperators s ↔ countStandalone s = 0) := by
  have hlen : ∀ t : String, (replaceOperators t).length = t.length + countStandalone t := by
    intro t
    show (replaceOperators t).data.length = t.data.length + countFrom isWordChar false t.data
    rw [replaceOperators_data, length_rewriteFrom]
  have hcount : ∀ t : String, countStandalone (replaceOperators t) = countStandalone t := by
    intro t
    show countFrom isWordChar false (replaceOperators t).data = countFrom isWordChar false t.data
    rw [replaceOperators_data, countFrom_rewriteFrom]
  refine ⟨?_, by decide, hlen s, hcount s, ?_, ?_⟩
  · rw [string_eq_iff_data, replaceOperators_data]
    rfl
  · intro h
    have h1 := hlen (replaceOperators s)
    rw [h, hcount s] at h1
    omega
  · intro h
    have h2 : replaceOperators s = s := by
      rw [string_eq_iff_data, replaceOperators_data]
      exact rewriteFrom_of_count_zero _ _ _ h
    rw [h2, h2]

/-- Counterexample to C6 as stated: an operator that already carries a `$` gets
a second one, and the rewrite of a rewritten filter text differs from it. -/
theorem replaceOperators_twice_counterexample :
    replaceOperators "$gt" = "$$gt"
      ∧ replaceOperators (JSON.stringify (.obj [("price", .obj [("$gt", .str "100")])])) =
        JSON.stringify (.obj [("price", .obj [("$$gt", .str "100")])])
      ∧ replaceOperators (replaceOperators (JSON.stringify (.obj [("price", .obj [("gt", .str "100")])])))
        ≠ replaceOperators (JSON.stringify (.obj [("price", .obj [("gt", .str "100")])])) := by
  decide

/-! ## Strings: escaping, rewriting, decoding -/

theorem isTok_cons_of_not_initial (e : Char) (Z : List Char)
    (he : e ≠ 'g' ∧ e ≠ 'l' ∧ e ≠ 'i') : isTok (e :: Z) = false := by
  obtain ⟨h1, h2, h3⟩ := he
  by_cases hw : isWordChar e = true
  · simp [isTok, List.takeWhile, hw, operators, h1, h2, h3]
  · simp [isTok, List.takeWhile, hw, operators]

theorem control_escape :
    ∀ n, n < 32 →
      unicodeEscape '0' '0' (hexDigit (n / 16)) (hexDigit (n % 16)) = some (Char.ofNat n)
        ∧ isWordChar (hexDigit (n / 16)) = true ∧ isWordChar (hexDigit (n % 16)) = true := by
  decide

/-- The three shapes of an escaped character. -/
theorem escapeChar_cases (c : Char) :
    (escapeChar c = [c] ∧ c ≠ '\x22' ∧ c ≠ '\x5c' ∧ ¬ c.toNat < 32)
      ∨ (∃ e, escapeChar c = ['\x5c', e] ∧ simpleEscape e = some c ∧ e ≠ 'u'
          ∧ (e ≠ 'g' ∧ e ≠ 'l' ∧ e ≠ 'i') ∧ isWordChar e = blocksOperator c
          ∧ isWordChar c = false)
      ∨ (∃ h1 h2, escapeChar c = ['\x5c', 'u', '0', '0', h1, h2]
          ∧ unicodeEscape '0' '0' h1 h2 = some c
          ∧ isWordChar h1 = true ∧ isWordChar h2 = true ∧ blocksOperator c = true
          ∧ isWordChar c = false) := by
  by_cases h1 : c = '\x22'
  · subst h1
    exact Or.inr (Or.inl ⟨'\x22', by decide⟩)
  by_cases h2 : c = '\x5c'
  · subst h2
    exact Or.inr (Or.inl ⟨'\x5c', by decide⟩)
  by_cases h3 : c = '\x08'
  · subst h3
    exact Or.inr (Or.inl ⟨'b', by decide⟩)
  by_cases h4 : c = '\x0c'
  · subst h4
    exact Or.inr (Or.inl ⟨'f', by decide⟩)
  by_cases h5 : c = '\n'
  · subst h5
    exact Or.inr (Or.inl ⟨'n', by decide⟩)
  by_cases h6 : c = '\r'
  · subst h6
    exact Or.inr (Or.inl ⟨'r', by decide⟩)
  by_cases h7 : c = '\t'
  · subst h7
    exact Or.inr (Or.inl ⟨'t', by decide⟩)
  by_cases h8 : c.toNat < 32
  · refine Or.inr (Or.inr ⟨hexDigit (c.toNat / 16), hexDigit (c.toNat % 16), ?_, ?_, ?_, ?_, ?_, ?_⟩)
    · simp [escapeChar, h1, h2, h3, h4, h5, h6, h7, h8]
    · rw [(control_escape _ h8).1, Char.ofNat_toNat]
    · exact (control_escape _ h8).2.1
    · exact (control_escape _ h8).2.2
    · simp [blocksOperator, h8]
    · have : ¬ (48 ≤ c.toNat) := by omega
      have h65 : ¬ (65 ≤ c.toNat) := by omega
      have h97 : ¬ (97 ≤ c.toNat) := by omega
      have h95 : ¬ (c.toNat = 95) := by omega
      simp [isWordChar, this, h65, h97, h95]
  · exact Or.inl ⟨by simp [escapeChar, h1, h2, h3, h4, h5, h6, h7, h8], h1, h2, h8⟩

theorem takeWhile_escapeChars (s : List Char) :
    (escapeChars s).takeWhile isWordChar = s.takeWhile isWordChar := by
  induction s with
  | nil => rfl
  | cons c cs ih =>
    have hbs : isWordChar '\x5c' = false := by decide
    rcases escapeChar_cases c with ⟨he, _, _, _⟩ | ⟨e, he, _, _, _, _, hc⟩ | ⟨h1, h2, he, _, _, _, _, hc⟩
    · rw [escapeChars, he]
      by_cases hc : isWordChar c = true
      · simp [List.takeWhile, hc, ih]
      · simp [List.takeWhile, hc]
    · rw [escapeChars, he]
      simp [List.takeWhile, hbs, hc]
    · rw [escapeChars, he]
      simp [List.takeWhile, hbs, hc]

theorem isTok_cons_escapeChars (c : Char) (cs : List Char) :
    isTok (c :: escapeChars cs) = isTok (c :: cs) := by
  by_cases hc : isWordChar c = true
  · simp [isTok, List.takeWhile, hc, takeWhile_escapeChars]
  · simp [isTok, List.takeWhile, hc]

theorem parseStringBody_plain (c : Char) (Y : List Char)
    (hc : c ≠ '\x22' ∧ c ≠ '\x5c' ∧ ¬ c.toNat < 32) :
    parseStringBody (c :: Y) = consChar c (parseStringBody Y) := by
  obtain ⟨h1, h2, h3⟩ := hc
  conv_lhs => unfold parseStringBody
  simp only [h1, h2, h3, if_false]

theorem parseStringBody_simple (e c : Char) (Y : List Char)
    (he : e ≠ 'u') (hs : simpleEscape e = some c) :
    parseStringBody ('\x5c' :: e :: Y) = consChar c (parseStringBody Y) := by
  conv_lhs => unfold parseStringBody
  have h1 : ¬ ('\x5c' : Char) = '\x22' := by decide
  simp only [h1, he, if_false, if_true, hs]

theorem parseStringBody_unicode (c h1 h2 : Char) (Y : List Char)
    (hs : unicodeEscape '0' '0' h1 h2 = some c) :
    parseStringBody ('\x5c' :: 'u' :: '0' :: '0' :: h1 :: h2 :: Y)
      = consChar c (parseStringBody Y) := by
  conv_lhs => unfold parseStringBody
  have h1 : ¬ ('\x5c' : Char) = '\x22' := by decide
  simp only [h1, if_false, if_true, hs]

theorem parseStringBody_quote (Y : List Char) :
    parseStringBody ('\x22' :: Y) = some ([], Y) := by
  conv_lhs => unfold parseStringBody
  simp only [if_true]

theorem rewriteFrom_cons (after : Char → Bool) (b : Bool) (c : Char) (cs : List Char) :
    rewriteFrom after b (c :: cs) =
      (if (!b && isTok (c :: cs)) = true then ['$', c] else [c])
        ++ rewriteFrom after (after c) cs := rfl

/-- Decoding the rewritten escaped text of a string gives the string with a `$`
in front of every operator that the character before does not block. -/
theorem parseStringBody_rewrite (s : List Char) (b : Bool) (R : List Char) :
    parseStringBody (rewriteFrom isWordChar b (escapeChars s) ++ '\x22' :: R)
      = some (rewriteFrom blocksOperator b s, R) := by
  have hbs : isWordChar '\x5c' = false := by decide
  induction s generalizing b with
  | nil =>
    rw [escapeChars, rewriteFrom, List.nil_append, parseStringBody_quote]
    simp [rewriteFrom]
  | cons c cs ih =>
    rcases escapeChar_cases c with ⟨he, hq, hb2, hctl⟩ | ⟨e, he, hs, hu, hini, hblk, hc⟩
        | ⟨h1, h2, he, hs, hw1, hw2, hblk, hc⟩
    · have hbo : blocksOperator c = isWordChar c := by simp [blocksOperator, hctl]
      rw [escapeChars, he, List.singleton_append, rewriteFrom, rewriteFrom,
        isTok_cons_escapeChars, hbo]
      cases hcond : (!b && isTok (c :: cs))
      · simp only [Bool.false_eq_true, if_false, List.cons_append, List.nil_append]
        rw [parseStringBody_plain c _ ⟨hq, hb2, hctl⟩, ih]
        rfl
      · simp only [if_true, List.cons_append, List.nil_append]
        rw [parseStringBody_plain '$' _ (by decide), parseStringBody_plain c _ ⟨hq, hb2, hctl⟩, ih]
        rfl
    · have hcs : isTok (c :: cs) = false := isTok_nonword c cs hc
      rw [escapeChars, he, rewriteFrom_cons blocksOperator b c, hcs]
      simp only [List.cons_append, List.nil_append, Bool.and_false, Bool.false_eq_true, if_false]
      rw [rewriteFrom, isTok_nonword _ _ hbs, rewriteFrom, hbs,
        isTok_cons_of_not_initial e _ hini, hblk]
      simp only [Bool.and_false, Bool.false_eq_true, if_false, List.cons_append, List.nil_append]
      rw [parseStringBody_simple e c _ hu hs, ih]
      rfl
    · have hcs : isTok (c :: cs) = false := isTok_nonword c cs hc
      have hw0 : isWordChar '0' = true := by decide
      have hwu : isWordChar 'u' = true := by decide
      rw [escapeChars, he, rewriteFrom_cons blocksOperator b c, hcs]
      simp only [List.cons_append, List.nil_append, Bool.and_false, Bool.false_eq_true, if_false]
      rw [rewriteFrom, isTok_nonword _ _ hbs, rewriteFrom, hbs,
        isTok_cons_of_not_initial 'u' _ (by decide), rewriteFrom, hwu, rewriteFrom, hw0,
        rewriteFrom, rewriteFrom, hw1, hw2, hblk]
      simp only [Bool.and_false, Bool.false_eq_true, if_false, List.cons_append, List.nil_append,
        Bool.not_true, Bool.false_and]
      rw [parseStringBody_unicode c h1 h2 _ hs, ih]
      rfl

/-! ## The rewrite of a serialised value -/

theorem rewriteFrom_nonword (b : Bool) (d : Char) (X : List Char) (hd : isWordChar d = false) :
    rewriteFrom isWordChar b (d :: X) = d :: rewriteFrom isWordChar false X := by
  rw [rewriteFrom, isTok_nonword d X hd, hd]
  simp

theorem rewriteFrom_quoteJSON (b : Bool) (k : String) (X : List Char) :
    rewriteFrom isWordChar b (quoteJSON k ++ X) =
      '\x22' :: (rewrittenBody k ++ '\x22' :: rewriteFrom isWordChar false X) := by
  have hq : isWordChar '\x22' = false := by decide
  simp only [quoteJSON, List.cons_append, List.append_assoc, List.singleton_append]
  rw [rewriteFrom_nonword b _ _ hq, rewriteFrom_append_stop _ _ _ _ hq]
  rfl

mutual
theorem rewriteFrom_stringifyVal : ∀ (v : QVal) (b : Bool) (R : List Char),
    rewriteFrom isWordChar b (stringifyVal v ++ R) =
      renderVal rewrittenBody v ++ rewriteFrom isWordChar false R
  | .str s, b, R => by
    rw [stringifyVal, rewriteFrom_quoteJSON, renderVal]
    simp
  | .arr xs, b, R => by
    have h1 : isWordChar '[' = false := by decide
    have h2 : isWordChar ']' = false := by decide
    rw [stringifyVal, renderVal]
    simp only [List.cons_append, List.append_assoc, List.singleton_append, List.nil_append]
    rw [rewriteFrom_nonword b _ _ h1, rewriteFrom_stringifyElems xs false ']' R h2]
  | .obj props, b, R => by
    have h1 : isWordChar '\x7b' = false := by decide
    have h2 : isWordChar '\x7d' = false := by decide
    rw [stringifyVal, renderVal]
    simp only [List.cons_append, List.append_assoc, List.singleton_append, List.nil_append]
    rw [rewriteFrom_nonword b _ _ h1, rewriteFrom_stringifyMembers props false '\x7d' R h2]
theorem rewriteFrom_stringifyElems : ∀ (xs : List QVal) (b : Bool) (d : Char) (R : List Char),
    isWordChar d = false →
    rewriteFrom isWordChar b (stringifyElems xs ++ d :: R) =
      renderElems rewrittenBody xs ++ d :: rewriteFrom isWordChar false R
  | [], b, d, R, hd => by
    rw [stringifyElems, renderElems, List.nil_append, List.nil_append, rewriteFrom_nonword b d R hd]
  | [x], b, d, R, hd => by
    rw [stringifyElems, renderElems, rewriteFrom_stringifyVal x b, rewriteFrom_nonword false d R hd]
  | x :: y :: rest, b, d, R, hd => by
    have hc : isWordChar ',' = false := by decide
    rw [stringifyElems, renderElems]
    simp only [List.cons_append, List.append_assoc]
    rw [rewriteFrom_stringifyVal x b, rewriteFrom_nonword false _ _ hc,
      rewriteFrom_stringifyElems (y :: rest) false d R hd]
theorem rewriteFrom_stringifyMembers : ∀ (props : List (String × QVal)) (b : Bool) (d : Char)
    (R : List Char), isWordChar d = false →
    rewriteFrom isWordChar b (stringifyMembers props ++ d :: R) =
      renderMembers rewrittenBody props ++ d :: rewriteFrom isWordChar false R
  | [], b, d, R, hd => by
    rw [stringifyMembers, renderMembers, List.nil_append, List.nil_append,
      rewriteFrom_nonword b d R hd]
  | [(k, v)], b, d, R, hd => by
    have hc : isWordChar ':' = false := by decide
    rw [stringifyMembers, renderMembers]
    simp only [List.cons_append, List.append_assoc, List.singleton_append, List.nil_append]
    rw [rewriteFrom_quoteJSON, rewriteFrom_nonword false _ _ hc, rewriteFrom_stringifyVal v false,
      rewriteFrom_nonword false d R hd]
  | (k, v) :: kv :: rest, b, d, R, hd => by
    have hc : isWordChar ':' = false := by decide
    have hm : isWordChar ',' = false := by decide
    rw [stringifyMembers, renderMembers]
    simp only [List.cons_append, List.append_assoc, List.singleton_append, List.nil_append]
    rw [rewriteFrom_quoteJSON, rewriteFrom_nonword false _ _ hc, rewriteFrom_stringifyVal v false,
      rewriteFrom_nonword false _ _ hm, rewriteFrom_stringifyMembers (kv :: rest) false d R hd]
end

/-- The rewritten serialisation is the serialisation with rewritten string bodies. -/
theorem replaceOperators_stringify (v : QVal) :
    (replaceOperators (JSON.stringify v)).data = renderVal rewrittenBody v := by
  rw [replaceOperators_data]
  have := rewriteFrom_stringifyVal v false []
  simpa [JSON.stringify, rewriteFrom] using this

/-! ## Injectivity of the rewrite on strings -/

theorem isTok_head_word (c : Char) (cs : List Char) (h : isTok (c :: cs) = true) :
    isWordChar c = true := by
  by_cases hc : isWordChar c = true
  · exact hc
  · simp only [Bool.not_eq_true] at hc
    rw [isTok_nonword c cs hc] at h
    cases h

theorem rewriteFrom_injective (after : Char → Bool) (hafter : after '$' = false) :
    ∀ (a a' : List Char) (b : Bool),
      rewriteFrom after b a = rewriteFrom after b a' → a = a' := by
  have hdollar : isWordChar '$' = false := by decide
  -- a marked position against an unmarked one
  have mixed : ∀ (c : Char) (cs : List Char) (d : Char) (ds : List Char),
      (∀ (a' : List Char) (b : Bool), rewriteFrom after b cs = rewriteFrom after b a' → cs = a') →
      isTok (c :: cs) = true →
      '$' :: c :: rewriteFrom after (after c) cs = d :: rewriteFrom after (after d) ds → False := by
    intro c cs d ds ih htok h
    have hcw := isTok_head_word c cs htok
    have hne : c ≠ '$' := by
      intro hc
      rw [hc, hdollar] at hcw
      cases hcw
    simp only [List.cons.injEq] at h
    obtain ⟨hd, h⟩ := h
    subst hd
    rw [hafter] at h
    cases ds with
    | nil => simp [rewriteFrom] at h
    | cons e es =>
      rw [rewriteFrom_cons] at h
      cases hB : (!false && isTok (e :: es))
      · rw [hB] at h
        simp only [Bool.false_eq_true, if_false, List.singleton_append, List.cons.injEq] at h
        obtain ⟨hce, h⟩ := h
        subst hce
        have := ih es _ h
        subst this
        simp [htok] at hB
      · rw [hB] at h
        simp only [if_true, List.cons_append, List.nil_append, List.cons.injEq] at h
        exact hne h.1
  intro a
  induction a with
  | nil =>
    intro a' b h
    cases a' with
    | nil => rfl
    | cons d ds =>
      rw [rewriteFrom_cons] at h
      cases hB : (!b && isTok (d :: ds)) <;> rw [hB] at h <;> simp [rewriteFrom] at h
  | cons c cs ih =>
    intro a' b h
    cases a' with
    | nil =>
      rw [rewriteFrom_cons] at h
      cases hA : (!b && isTok (c :: cs)) <;> rw [hA] at h <;> simp [rewriteFrom] at h
    | cons d ds =>
      rw [rewriteFrom_cons, rewriteFrom_cons] at h
      cases hA : (!b && isTok (c :: cs)) <;> cases hB : (!b && isTok (d :: ds))
      · rw [hA, hB] at h
        simp only [Bool.false_eq_true, if_false, List.singleton_append, List.cons.injEq] at h
        obtain ⟨hcd, h⟩ := h
        subst hcd
        rw [ih _ _ h]
      · exfalso
        rw [hA, hB] at h
        simp only [Bool.false_eq_true, if_false, if_true, List.singleton_append,
          List.cons_append, List.nil_append] at h
        have htok : isTok (d :: ds) = true := by
          simp only [Bool.and_eq_true] at hB
          exact hB.2
        -- the roles are exchanged: use the induction on the other side
        have hwd := isTok_head_word d ds htok
        have hne : d ≠ '$' := by
          intro hc
          rw [hc, hdollar] at hwd
          cases hwd
        simp only [List.cons.injEq] at h
        obtain ⟨hc, h⟩ := h
        subst hc
        rw [hafter] at h
        cases cs with
        | nil => simp [rewriteFrom] at h
        | cons e es =>
          rw [rewriteFrom_cons] at h
          cases hE : (!false && isTok (e :: es))
          · rw [hE] at h
            simp only [Bool.false_eq_true, if_false, List.singleton_append, List.cons.injEq] at h
            obtain ⟨hed, h⟩ := h
            subst hed
            have hes : e :: es = e :: ds := ih (e :: ds) true (by
              rw [rewriteFrom_cons, rewriteFrom_cons]
              simp [h])
            simp only [List.cons.injEq, true_and] at hes
            subst hes
            simp [htok] at hE
          · rw [hE] at h
            simp only [if_true, List.cons_append, List.nil_append, List.cons.injEq] at h
            exact hne h.1.symm
      · exfalso
        rw [hA, hB] at h
        simp only [Bool.false_eq_true, if_false, if_true, List.singleton_append,
          List.cons_append, List.nil_append] at h
        have htok : isTok (c :: cs) = true := by
          simp only [Bool.and_eq_true] at hA
          exact hA.2
        exact mixed c cs d ds ih htok h
      · rw [hA, hB] at h
        simp only [if_true, List.cons_append, List.nil_append, List.cons.injEq] at h
        obtain ⟨_, hcd, h⟩ := h
        subst hcd
        rw [ih _ _ h]

/-! ## Parsing a rendered value -/

theorem skipWs_cons (c : Char) (l : List Char) (hc : isJsonWs c = false) :
    skipWs (c :: l) = c :: l := by
  rw [skipWs, hc]
  simp

theorem opensValue_facts (c : Char) (h : opensValue c) :
    isJsonWs c = false ∧ c ≠ ']' ∧ c ≠ '\x7d' := by
  rcases h with h | h | h <;> subst h <;> decide

theorem renderVal_head (g : String → List Char) (v : QVal) :
    ∃ c tl, renderVal g v = c :: tl ∧ opensValue c := by
  cases v with
  | str s => exact ⟨_, _, by rw [renderVal], Or.inl rfl⟩
  | arr xs => exact ⟨_, _, by rw [renderVal], Or.inr (Or.inl rfl)⟩
  | obj props => exact ⟨_, _, by rw [renderVal], Or.inr (Or.inr rfl)⟩

theorem renderElems_head (g : String → List Char) (xs : List QVal) (hne : xs ≠ []) :
    ∃ c tl, renderElems g xs = c :: tl ∧ opensValue c := by
  cases xs with
  | nil => exact absurd rfl hne
  | cons x rest =>
    obtain ⟨c, tl, hx, hc⟩ := renderVal_head g x
    cases rest with
    | nil => exact ⟨c, tl, by rw [renderElems, hx], hc⟩
    | cons y rest => exact ⟨c, _, by rw [renderElems, hx, List.cons_append], hc⟩

theorem renderMembers_head (g : String → List Char) (props : List (String × QVal))
    (hne : props ≠ []) : ∃ tl, renderMembers g props = '\x22' :: tl := by
  cases props with
  | nil => exact absurd rfl hne
  | cons kv rest =>
    obtain ⟨k, v⟩ := kv
    cases rest with
    | nil => exact ⟨_, by rw [renderMembers, List.cons_append]⟩
    | cons y rest => exact ⟨_, by rw [renderMembers, List.cons_append]⟩

theorem parseValue_str (fuel : Nat) (X : List Char) :
    parseValue (fuel + 1) ('\x22' :: X) =
      match parseStringBody X with
      | none => none
      | some (s, r) => some (.str (String.mk s), r) := by
  rw [parseValue, skipWs_cons _ _ (by decide)]
  simp only [if_true]

theorem parseValue_arr_nil (fuel : Nat) (R : List Char) :
    parseValue (fuel + 1) ('[' :: ']' :: R) = some (.arr [], R) := by
  rw [parseValue, skipWs_cons _ _ (by decide)]
  have h1 : ¬ ('[' : Char) = '\x22' := by decide
  simp only [h1, if_false, if_true]
  rw [skipWs_cons _ _ (by decide)]
  simp only [if_true]

theorem parseValue_arr_cons (fuel : Nat) (c : Char) (tl : List Char) (hc : opensValue c) :
    parseValue (fuel + 1) ('[' :: c :: tl) =
      match parseElems fuel (c :: tl) with
      | none => none
      | some (xs, r1) => some (.arr xs, r1) := by
  obtain ⟨hws, hb, _⟩ := opensValue_facts c hc
  rw [parseValue, skipWs_cons _ _ (by decide)]
  have h1 : ¬ ('[' : Char) = '\x22' := by decide
  simp only [h1, if_false, if_true]
  rw [skipWs_cons _ _ hws]
  simp only [hb, if_false]

theorem parseValue_obj_nil (fuel : Nat) (R : List Char) :
    parseValue (fuel + 1) ('\x7b' :: '\x7d' :: R) = some (.obj [], R) := by
  rw [parseValue, skipWs_cons _ _ (by decide)]
  have h1 : ¬ ('\x7b' : Char) = '\x22' := by decide
  have h2 : ¬ ('\x7b' : Char) = '[' := by decide
  simp only [h1, h2, if_false, if_true]
  rw [skipWs_cons _ _ (by decide)]
  simp only [if_true]

theorem parseValue_obj_cons (fuel : Nat) (tl : List Char) :
    parseValue (fuel + 1) ('\x7b' :: '\x22' :: tl) =
      match parseMembers fuel ('\x22' :: tl) with
      | none => none
      | some (ms, r1) => some (.obj (buildObject ms), r1) := by
  rw [parseValue, skipWs_cons _ _ (by decide)]
  have h1 : ¬ ('\x7b' : Char) = '\x22' := by decide
  have h2 : ¬ ('\x7b' : Char) = '[' := by decide
  have h3 : ¬ ('\x22' : Char) = '\x7d' := by decide
  simp only [h1, h2, if_false, if_true]
  rw [skipWs_cons _ _ (by decide)]
  simp only [h3, if_false]

theorem parseElems_last (fuel : Nat) (l : List Char) (v : QVal) (R : List Char)
    (h : parseValue fuel l = some (v, ']' :: R)) :
    parseElems (fuel + 1) l = some ([v], R) := by
  rw [parseElems, h]
  simp only
  rw [skipWs_cons _ _ (by decide)]
  have h1 : ¬ (']' : Char) = ',' := by decide
  simp only [h1, if_false, if_true]

theorem parseElems_more (fuel : Nat) (l : List Char) (v : QVal) (X : List Char)
    (vs : List QVal) (R : List Char)
    (h : parseValue fuel l = some (v, ',' :: X)) (h2 : parseElems fuel X = some (vs, R)) :
    parseElems (fuel + 1) l = some (v :: vs, R) := by
  rw [parseElems, h]
  simp only
  rw [skipWs_cons _ _ (by decide)]
  simp only [if_true, h2]

theorem parseMembers_last (fuel : Nat) (X : List Char) (k r1 : List Char) (v : QVal)
    (R : List Char) (hk : parseStringBody X = some (k, ':' :: r1))
    (hv : parseValue fuel r1 = some (v, '\x7d' :: R)) :
    parseMembers (fuel + 1) ('\x22' :: X) = some ([(String.mk k, v)], R) := by
  rw [parseMembers, skipWs_cons _ _ (by decide)]
  simp only [if_true, hk]
  rw [skipWs_cons _ _ (by decide)]
  simp only [if_true, hv]
  rw [skipWs_cons _ _ (by decide)]
  have h1 : ¬ ('\x7d' : Char) = ',' := by decide
  simp only [h1, if_false, if_true]

theorem parseMembers_more (fuel : Nat) (X : List Char) (k r1 : List Char) (v : QVal)
    (Y : List Char) (ms : List (String × QVal)) (R : List Char)
    (hk : parseStringBody X = some (k, ':' :: r1))
    (hv : parseValue fuel r1 = some (v, ',' :: Y))
    (hms : parseMembers fuel Y = some (ms, R)) :
    parseMembers (fuel + 1) ('\x22' :: X) = some ((String.mk k, v) :: ms, R) := by
  rw [parseMembers, skipWs_cons _ _ (by decide)]
  simp only [if_true, hk]
  rw [skipWs_cons _ _ (by decide)]
  simp only [if_true, hv]
  rw [skipWs_cons _ _ (by decide)]
  simp only [if_true, hms]

theorem setProp_append {α : Type} (k : String) (v : α) (acc : List (String × α))
    (h : k ∉ acc.map Prod.fst) : setProp k v acc = acc ++ [(k, v)] := by
  induction acc with
  | nil => rfl
  | cons kv rest ih =>
    obtain ⟨k', v'⟩ := kv
    simp only [List.map_cons, List.mem_cons, not_or] at h
    have hne : ¬ k' = k := fun hh => h.1 hh.symm
    rw [setProp]
    simp only [hne, if_false, List.cons_append, ih h.2]

theorem foldl_setProp (ms acc : List (String × QVal))
    (h : (acc.map Prod.fst ++ ms.map Prod.fst).Nodup) :
    ms.foldl (fun acc kv => setProp kv.1 kv.2 acc) acc = acc ++ ms := by
  induction ms generalizing acc with
  | nil => simp
  | cons kv rest ih =>
    have hnot : kv.1 ∉ acc.map Prod.fst := by
      intro hmem
      rw [List.nodup_append] at h
      exact h.2.2 hmem (by simp)
    rw [List.foldl_cons, setProp_append _ _ _ hnot, ih]
    · simp
    · simpa [List.append_assoc] using h

theorem buildObject_nodup (ms : List (String × QVal)) (h : (ms.map Prod.fst).Nodup) :
    buildObject ms = ms := by
  rw [buildObject, foldl_setProp ms [] (by simpa using h)]
  rfl

theorem keys_mapMembers (f : String → String) (props : List (String × QVal)) :
    (QVal.mapMembers f props).map Prod.fst = (props.map Prod.fst).map f := by
  induction props with
  | nil => rfl
  | cons kv rest ih =>
    obtain ⟨k, v⟩ := kv
    rw [QVal.mapMembers]
    simp [ih]

mutual
/-- Parsing the rendering of a value with distinct keys gives the value with `h`
applied to its strings, when `g` renders what decodes to `h`. -/
theorem parseValue_render (g : String → List Char) (h : String → String)
    (Hg : ∀ s R, parseStringBody (g s ++ '\x22' :: R) = some ((h s).data, R))
    (Hinj : Function.Injective h) :
    ∀ (v : QVal), v.distinctKeys = true → ∀ (fuel : Nat) (R : List Char),
      (renderVal g v).length ≤ fuel →
      parseValue fuel (renderVal g v ++ R) = some (v.mapStrings h, R)
  | .str s, _, fuel, R, hf => by
    rw [renderVal] at hf ⊢
    cases fuel with
    | zero => simp at hf
    | succ f =>
      simp only [List.cons_append, List.append_assoc, List.singleton_append, List.nil_append]
      rw [parseValue_str, Hg, QVal.mapStrings]
  | .arr xs, hv, fuel, R, hf => by
    rw [renderVal] at hf ⊢
    rw [QVal.distinctKeys] at hv
    cases fuel with
    | zero => simp at hf
    | succ f =>
      simp only [List.cons_append, List.append_assoc, List.singleton_append, List.nil_append]
      rw [QVal.mapStrings]
      by_cases hne : xs = []
      · subst hne
        rw [renderElems, List.nil_append, parseValue_arr_nil, QVal.mapElems]
      · obtain ⟨c, tl, hx, hc⟩ := renderElems_head g xs hne
        have hlen : (renderElems g xs).length < f := by
          simp only [List.length_cons, List.length_append, List.length_nil] at hf
          omega
        have := parseElems_render g h Hg Hinj xs hne hv f R hlen
        rw [hx] at this ⊢
        rw [List.cons_append] at this ⊢
        rw [parseValue_arr_cons f c _ hc, this]
  | .obj props, hv, fuel, R, hf => by
    rw [renderVal] at hf ⊢
    rw [QVal.distinctKeys] at hv
    simp only [Bool.and_eq_true, decide_eq_true_eq] at hv
    cases fuel with
    | zero => simp at hf
    | succ f =>
      simp only [List.cons_append, List.append_assoc, List.singleton_append, List.nil_append]
      rw [QVal.mapStrings]
      by_cases hne : props = []
      · subst hne
        rw [renderMembers, List.nil_append, parseValue_obj_nil, QVal.mapMembers]
      · obtain ⟨tl, hx⟩ := renderMembers_head g props hne
        have hlen : (renderMembers g props).length < f := by
          simp only [List.length_cons, List.length_append, List.length_nil] at hf
          omega
        have := parseMembers_render g h Hg Hinj props hne hv.2 f R hlen
        rw [hx] at this ⊢
        rw [List.cons_append] at this ⊢
        rw [parseValue_obj_cons f _, this]
        simp only
        rw [buildObject_nodup]
        rw [keys_mapMembers]
        exact hv.1.map Hinj
theorem parseElems_render (g : String → List Char) (h : String → String)
    (Hg : ∀ s R, parseStringBody (g s ++ '\x22' :: R) = some ((h s).data, R))
    (Hinj : Function.Injective h) :
    ∀ (xs : List QVal), xs ≠ [] → QVal.distinctKeysElems xs = true →
      ∀ (fuel : Nat) (R : List Char), (renderElems g xs).length < fuel →
      parseElems fuel (renderElems g xs ++ ']' :: R) = some (QVal.mapElems h xs, R)
  | [], hne, _, _, _, _ => absurd rfl hne
  | [x], _, hv, fuel, R, hf => by
    rw [renderElems] at hf ⊢
    rw [QVal.distinctKeysElems] at hv
    simp only [Bool.and_eq_true] at hv
    cases fuel with
    | zero => omega
    | succ f =>
      have := parseValue_render g h Hg Hinj x hv.1 f (']' :: R) (by omega)
      rw [parseElems_last f _ _ R this]
      simp only [QVal.mapElems]
  | x :: y :: rest, _, hv, fuel, R, hf => by
    rw [renderElems] at hf ⊢
    rw [QVal.distinctKeysElems] at hv
    simp only [Bool.and_eq_true] at hv
    simp only [List.length_append, List.length_cons] at hf
    cases fuel with
    | zero => omega
    | succ f =>
      simp only [List.append_assoc, List.cons_append]
      have h1 := parseValue_render g h Hg Hinj x hv.1 f
        (',' :: (renderElems g (y :: rest) ++ ']' :: R)) (by omega)
      have h2 := parseElems_render g h Hg Hinj (y :: rest) (by simp) hv.2 f R (by omega)
      rw [parseElems_more f _ _ _ _ R h1 h2]
      simp only [QVal.mapElems]
theorem parseMembers_render (g : String → List Char) (h : String → String)
    (Hg : ∀ s R, parseStringBody (g s ++ '\x22' :: R) = some ((h s).data, R))
    (Hinj : Function.Injective h) :
    ∀ (props : List (String × QVal)), props ≠ [] → QVal.distinctKeysMembers props = true →
      ∀ (fuel : Nat) (R : List Char), (renderMembers g props).length < fuel →
      parseMembers fuel (renderMembers g props ++ '\x7d' :: R) =
        some (QVal.mapMembers h props, R)
  | [], hne, _, _, _, _ => absurd rfl hne
  | [(k, v)], _, hv, fuel, R, hf => by
    rw [renderMembers] at hf ⊢
    rw [QVal.distinctKeysMembers] at hv
    simp only [Bool.and_eq_true] at hv
    simp only [List.length_append, List.length_cons, List.length_nil] at hf
    cases fuel with
    | zero => omega
    | succ f =>
      simp only [List.append_assoc, List.cons_append, List.singleton_append, List.nil_append]
      have h1 := Hg k (':' :: (renderVal g v ++ '\x7d' :: R))
      have h2 := parseValue_render g h Hg Hinj v hv.1 f ('\x7d' :: R) (by omega)
      rw [parseMembers_last f _ _ _ _ R h1 h2]
      simp only [QVal.mapMembers]
  | (k, v) :: kv :: rest, _, hv, fuel, R, hf => by
    rw [renderMembers] at hf ⊢
    rw [QVal.distinctKeysMembers] at hv
    simp only [Bool.and_eq_true] at hv
    simp only [List.length_append, List.length_cons, List.length_nil] at hf
    cases fuel with
    | zero => omega
    | succ f =>
      simp only [List.append_assoc, List.cons_append, List.singleton_append, List.nil_append]
      have h1 := Hg k (':' :: (renderVal g v ++ ',' :: (renderMembers g (kv :: rest) ++ '\x7d' :: R)))
      have h2 := parseValue_render g h Hg Hinj v hv.1 f
        (',' :: (renderMembers g (kv :: rest) ++ '\x7d' :: R)) (by omega)
      have h3 := parseMembers_render g h Hg Hinj (kv :: rest) (by simp) hv.2 f R (by omega)
      rw [parseMembers_more f _ _ _ _ _ _ R h1 h2 h3]
      simp only [QVal.mapMembers]
end

/-! ## The filter of `getBootcamps` -/

theorem prefixOperators_injective : Function.Injective prefixOperators := by
  intro s t hst
  have hd : (prefixOperators s).data = (prefixOperators t).data := by rw [hst]
  have := rewriteFrom_injective blocksOperator (by decide) s.data t.data false hd
  exact (string_eq_iff_data s t).2 this

theorem rewriteFrom_congr (after after' : Char → Bool) (l : List Char) (b : Bool)
    (h : ∀ c ∈ l, after c = after' c) : rewriteFrom after b l = rewriteFrom after' b l := by
  induction l generalizing b with
  | nil => rfl
  | cons c cs ih =>
    rw [rewriteFrom_cons, rewriteFrom_cons, h c (List.mem_cons_self _ _),
      ih _ (fun x hx => h x (List.mem_cons_of_mem _ hx))]

/-- Serialising, rewriting and re-parsing a value with distinct keys. -/
theorem parse_replace_stringify (v : QVal) (hv : v.distinctKeys = true) :
    JSON.parse (replaceOperators (JSON.stringify v)) = some (v.mapStrings prefixOperators) := by
  have Hg : ∀ s R, parseStringBody (rewrittenBody s ++ '\x22' :: R)
      = some ((prefixOperators s).data, R) := by
    intro s R
    exact parseStringBody_rewrite s.data false R
  have hp := parseValue_render rewrittenBody prefixOperators Hg prefixOperators_injective v hv
    ((renderVal rewrittenBody v).length + 1) [] (Nat.le_succ _)
  rw [List.append_nil] at hp
  rw [JSON.parse, replaceOperators_stringify, hp]
  simp [skipWs]

/-- C5 (as amended): for every filter source whose objects have distinct keys,
serialising, rewriting and re-parsing succeeds and yields the same structure
with a `$` in front of every standalone operator of a key or string value that
does not directly follow a control character, nothing else changed; in a key or
value without control characters that is every standalone operator. -/
theorem filter_rewrite_roundtrip (source : QVal) (hkeys : source.distinctKeys = true) :
    JSON.parse (replaceOperators (JSON.stringify source))
        = some (source.mapStrings prefixOperators)
      ∧ ∀ s : String, (∀ c ∈ s.data, 32 ≤ c.toNat) → prefixOperators s = prefixStandalone s := by
  refine ⟨parse_replace_stringify source hkeys, ?_⟩
  intro s hs
  rw [string_eq_iff_data]
  apply rewriteFrom_congr
  intro c hc
  have := hs c hc
  have hlt : ¬ c.toNat < 32 := by omega
  simp [blocksOperator, hlt]

/-- Witness of C5: `{price: {gt: "100"}}` becomes `{price: {$gt: "100"}}`. -/
theorem filter_rewrite_roundtrip_witness :
    JSON.parse (replaceOperators (JSON.stringify (.obj [("price", .obj [("gt", .str "100")])])))
        = some (.obj [("price", .obj [("$gt", .str "100")])])
      ∧ ∀ s : String, (∀ c ∈ s.data, 32 ≤ c.toNat) → prefixOperators s = prefixStandalone s :=
  filter_rewrite_roundtrip (.obj [("price", .obj [("gt", .str "100")])]) (by decide)

/-- Counterexample to C5 as stated: in the value `x⏎in` the operator `in` stands
alone after a line feed, yet the filter comes back unchanged, because in the
serialised text it follows the letter of the escape `\n`. -/
theorem filter_rewrite_roundtrip_counterexample :
    JSON.parse (replaceOperators (JSON.stringify (.obj [("name", .str "x\nin")])))
        = some (.obj [("name", .str "x\nin")])
      ∧ (QVal.obj [("name", .str "x\nin")]).mapStrings prefixStandalone
        = .obj [("name", .str "x\n$in")]
      ∧ JSON.parse (replaceOperators (JSON.stringify (.obj [("name", .str "x\nin")])))
        ≠ some ((QVal.obj [("name", .str "x\nin")]).mapStrings prefixStandalone) := by
  have h1 : JSON.parse (replaceOperators (JSON.stringify (.obj [("name", .str "x\nin")])))
        = some (.obj [("name", .str "x\nin")]) := by rfl
  have h2 : (QVal.obj [("name", .str "x\nin")]).mapStrings prefixStandalone
        = .obj [("name", .str "x\n$in")] := by rfl
  refine ⟨h1, h2, ?_⟩
  rw [h1, h2]
  intro h
  simp only [Option.some.injEq, QVal.obj.injEq, List.cons.injEq, Prod.mk.injEq,
    QVal.str.injEq] at h
  exact absurd h.1.2 (by decide)

theorem keys_deleteProp {α : Type} (k : String) (l : List (String × α)) :
    (deleteProp k l).map Prod.fst = (l.map Prod.fst).filter (fun j => decide (j ≠ k)) := by
  induction l with
  | nil => rfl
  | cons kv rest ih =>
    obtain ⟨k', v'⟩ := kv
    by_cases h : k' = k
    · simp [deleteProp, h, ih]
    · simp [deleteProp, h, ih]

theorem distinctKeysMembers_deleteProp (k : String) (l : List (String × QVal))
    (h : QVal.distinctKeysMembers l = true) : QVal.distinctKeysMembers (deleteProp k l) = true := by
  induction l with
  | nil => rfl
  | cons kv rest ih =>
    obtain ⟨k', v'⟩ := kv
    rw [QVal.distinctKeysMembers] at h
    simp only [Bool.and_eq_true] at h
    by_cases hk : k' = k
    · simp only [deleteProp, hk, if_true]
      exact ih h.2
    · simp only [deleteProp, hk, if_false]
      rw [QVal.distinctKeysMembers]
      simp [h.1, ih h.2]

theorem copyAndStrip_reqQuery (query : Query) :
    (copyAndStrip query).reqQuery =
      deleteProp "page" (deleteProp "limit" (deleteProp "sort" (deleteProp "select" query))) :=
  rfl

theorem keys_stripped (query : Query) :
    ((copyAndStrip query).reqQuery).map Prod.fst =
      (query.map Prod.fst).filter (fun k => decide (k ∉ removeFields)) := by
  rw [copyAndStrip_reqQuery, keys_deleteProp, keys_deleteProp, keys_deleteProp, keys_deleteProp]
  simp only [List.filter_filter]
  apply List.filter_congr
  intro k _
  simp only [removeFields, List.mem_cons, List.mem_singleton, List.not_mem_nil, or_false,
    not_or, Bool.decide_and, Bool.and_assoc, decide_not, Bool.and_eq_true, Bool.not_eq_true',
    decide_eq_false_iff_not]
  by_cases h1 : k = "select" <;> by_cases h2 : k = "sort" <;> by_cases h3 : k = "limit" <;>
    by_cases h4 : k = "page" <;> simp [h1, h2, h3, h4]

/-- C7: for every collection and every request query (objects with distinct
keys), the database query that `getBootcamps` executes is built on a filter
object that has exactly one key for every key of the request query other than
`select`, `sort`, `limit`, `page` (the key after the operator rewrite) and none
of these four; `select`, `sort`, `page` and `limit` are read from the request's
own query object afterwards, which the deletions leave unchanged. -/
theorem getBootcamps_filter_keys (M : Model) (query : Query)
    (hkeys : (QVal.obj query).distinctKeys = true) :
    ∃ props,
      props.map Prod.fst =
          ((query.map Prod.fst).filter (fun k => decide (k ∉ removeFields))).map prefixOperators
      ∧ (props.map Prod.fst).Nodup
      ∧ (∀ k ∈ removeFields, k ∉ props.map Prod.fst)
      ∧ (copyAndStrip query).reqDotQuery = query
      ∧ getBootcamps M query =
          (match fieldList "select" (lookupProp "select" query) with
           | .error e => .error e
           | .ok select =>
             match fieldList "sort" (lookupProp "sort" query) with
             | .error e => .error e
             | .ok sort =>
               match M.countDocuments none with
               | .error e => .error e
               | .ok total =>
                 match M.exec { conditions := .obj props, populate := ["courses"],
                                select := select,
                                sort := (match sort with
                                         | some s => s
                                         | none => "-createdAt"),
                                skip := (pageOf query - 1) * limitOf query,
                                limit := limitOf query } with
                 | .error e => .error e
                 | .ok docs =>
                   .ok { status := 200, success := true, count := docs.length,
                         pagination := paginationOf (pageOf query) (limitOf query) total,
                         data := docs }) := by
  rw [QVal.distinctKeys] at hkeys
  simp only [Bool.and_eq_true, decide_eq_true_eq] at hkeys
  obtain ⟨hnodup, hmem⟩ := hkeys
  have hstripped : (QVal.obj (copyAndStrip query).reqQuery).distinctKeys = true := by
    rw [QVal.distinctKeys]
    simp only [Bool.and_eq_true, decide_eq_true_eq]
    constructor
    · rw [keys_stripped]
      exact hnodup.filter _
    · rw [copyAndStrip_reqQuery]
      exact distinctKeysMembers_deleteProp _ _ (distinctKeysMembers_deleteProp _ _
        (distinctKeysMembers_deleteProp _ _ (distinctKeysMembers_deleteProp _ _ hmem)))
  have hparse := parse_replace_stringify _ hstripped
  rw [QVal.mapStrings] at hparse
  have hk : (QVal.mapMembers prefixOperators (copyAndStrip query).reqQuery).map Prod.fst =
      ((query.map Prod.fst).filter (fun k => decide (k ∉ removeFields))).map prefixOperators := by
    rw [keys_mapMembers, keys_stripped]
  refine ⟨_, hk, ?_, ?_, rfl, ?_⟩
  · rw [hk]
    exact (hnodup.filter _).map prefixOperators_injective
  · intro k hkr hkin
    rw [hk, List.mem_map] at hkin
    obtain ⟨j, hj, hjk⟩ := hkin
    have hfix : prefixOperators k = k := by
      simp only [removeFields, List.mem_cons, List.mem_singleton, List.not_mem_nil,
        or_false] at hkr
      rcases hkr with h | h | h | h <;> subst h <;> decide
    have hjeq : j = k := prefixOperators_injective (hjk.trans hfix.symm)
    subst hjeq
    simp only [List.mem_filter, decide_eq_true_eq] at hj
    exact hj.2 hkr
  · unfold getBootcamps
    simp only [hparse, copyAndStrip_reqDotQuery]
    rfl

/-- Witness of C7: `?price[gt]=100&select=name&page=2` on the sample collection. -/
theorem getBootcamps_filter_keys_witness :
    ∃ props,
      props.map Prod.fst =
          ((sampleQuery.map Prod.fst).filter
            (fun k => decide (k ∉ removeFields))).map prefixOperators
      ∧ (props.map Prod.fst).Nodup
      ∧ (∀ k ∈ removeFields, k ∉ props.map Prod.fst)
      ∧ (copyAndStrip sampleQuery).reqDotQuery = sampleQuery
      ∧ getBootcamps (memModel sampleDocs) sampleQuery =
          (match fieldList "select" (lookupProp "select" sampleQuery) with
           | .error e => .error e
           | .ok select =>
             match fieldList "sort" (lookupProp "sort" sampleQuery) with
             | .error e => .error e
             | .ok sort =>
               match (memModel sampleDocs).countDocuments none with
               | .error e => .error e
               | .ok total =>
                 match (memModel sampleDocs).exec
                      { conditions := .obj props, populate := ["courses"],
                        select := select,
                        sort := (match sort with
                                 | some s => s
                                 | none => "-createdAt"),
                        skip := (pageOf sampleQuery - 1) * limitOf sampleQuery,
                        limit := limitOf sampleQuery } with
                 | .error e => .error e
                 | .ok docs =>
                   .ok { status := 200, success := true, count := docs.length,
                         pagination := paginationOf (pageOf sampleQuery)
                           (limitOf sampleQuery) total,
                         data := docs }) :=
  getBootcamps_filter_keys (memModel sampleDocs) sampleQuery (by decide)

end LeanerApi
